import Mathlib

/-!
Shallow embedding of the NTT repository (`ntt_utils.py`, `ntt_round_trip.py`,
`nttstuff.py`) and a verification development for its specification.

Conventions: Python integers are `ℤ` (with `%` = `Int.emod` and `/` =
`Int.ediv`, which agree with Python's `%` and `//` for positive divisors),
list indices and exponents are `ℕ`, Python lists are `List ℤ` read with
`List.getD` and written with `List.set`, a failing `assert` or an uncaught
exception is `Option.none`, and unbounded `while` loops are given explicit
fuel that provably dominates their iteration count on every reachable input.
-/

/-- `reverse_bits(number, bit_length)` from `ntt_utils.py` (lines 57-62):
reverses the low `L` bits of `number`. -/
def reverse_bits (number : ℕ) (L : ℕ) : ℕ :=
  (List.range L).foldl
    (fun rev i => if (number >>> i) &&& 1 = 1 then rev ||| (1 <<< (L - 1 - i)) else rev) 0

/-- Fuel-driven halving loop for `bit_length`; `fuel = n` always suffices
because the argument halves at each step. -/
def bit_length_go : ℕ → ℕ → ℕ
  | 0, _ => 0
  | fuel + 1, n => if n = 0 then 0 else bit_length_go fuel (n / 2) + 1

/-- Python's `int.bit_length()`: the number of binary digits, with
`bit_length 0 = 0`. -/
def bit_length (n : ℕ) : ℕ := bit_length_go n n

/-- `get_bit_reversed(c, n, q)` from `ntt_round_trip.py` (lines 71-78).
`q` is unused in the source and kept for fidelity.  Swaps
`cc[i] ↔ cc[rev_i]` whenever `rev_i > i`, with `rev_i` the
`n.bit_length() - 1`-bit reversal of `i`. -/
def get_bit_reversed (c : List ℤ) (n : ℕ) (q : ℕ) : List ℤ :=
  (List.range n).foldl
    (fun cc i =>
      let rev_i := reverse_bits i (bit_length n - 1)
      if rev_i > i then (cc.set i (cc.getD rev_i 0)).set rev_i (cc.getD i 0) else cc)
    c

/-- Model of the external number-theory oracle `sympy.ntheory.isprime`
(treated as a boundary in the spec), by trial division; it is proved
equivalent to `Nat.Prime` below. -/
def isprime (x : ℕ) : Bool :=
  decide (2 ≤ x) && (List.range' 2 (x - 2)).all (fun d => x % d != 0)

/-- The `for k in range(1, n ** n)` search loop of `find_modulus`
(`ntt_round_trip.py` lines 133-141), with one unit of fuel per candidate. -/
def find_modulus_go (n min_modulus : ℕ) : ℕ → ℕ → Option ℕ
  | 0, _ => none
  | fuel + 1, k =>
    let q := k * 2 * n + 1
    if isprime q ∧ min_modulus ≤ q ∧ q % (2 * n) = 1 then some q
    else find_modulus_go n min_modulus fuel (k + 1)

/-- `find_modulus(n, min_modulus)` from `ntt_round_trip.py` (lines 119-141).
The outer `Option` models the entry `assert min_modulus > n` (`none` =
`AssertionError`); the inner `Option` is the Python return value, which is
`None` when the loop over `k ∈ range(1, n ** n)` falls through. -/
def find_modulus (n min_modulus : ℕ) : Option (Option ℕ) :=
  if n < min_modulus then some (find_modulus_go n min_modulus (n ^ n - 1) 1) else none

/-- The table-building loop of `gen_omegas` (`ntt_utils.py` lines 21-23):
`omegas = [1]`, then `omegas.append(omegas[i] * omega % q)` for
`i ∈ range(n)`. -/
def omegas_build (omega : ℤ) (q : ℕ) (n : ℕ) : List ℤ :=
  (List.range n).foldl (fun os i => os ++ [os.getD i 0 * omega % (q : ℤ)]) [1]

/-- `gen_omegas(n, q)` from `ntt_utils.py` (lines 12-28).  The primitive
root `g` supplied by the external oracle `sympy.ntheory.primitive_root(q)`
is passed explicitly; `none` models a failing `assert`. -/
def gen_omegas (g : ℕ) (n q : ℕ) : Option (List ℤ) :=
  let k := (q - 1) / n
  let omega : ℤ := (g : ℤ) ^ k % (q : ℤ)
  if 0 ≤ omega ∧ omega < (q : ℤ) then
    let omegas := omegas_build omega q n
    if ∀ i, i < n → omegas.getD (n - i) 0 * omegas.getD i 0 % (q : ℤ) = 1 then
      some (omegas.take n)
    else none
  else none

/-- The `while a > 1` extended-Euclid loop of `multiplicative_inverse`
(`ntt_utils.py` lines 44-51).  `none` models the `ZeroDivisionError` Python
raises on `a // q` once `q` reaches `0` (reachable exactly when the input is
not coprime to the modulus); the source never calls it with a negative
modulus. -/
def mi_go : ℕ → ℤ → ℤ → ℤ → ℤ → Option ℤ
  | 0, _, _, _, _ => none
  | fuel + 1, a, q, X, Y =>
    if 1 < a then
      if q ≤ 0 then none
      else
        let quotient := a / q
        mi_go fuel q (a % q) Y (X - quotient * Y)
    else some X

/-- `multiplicative_inverse(a, q)` inside `inversed` (`ntt_utils.py` lines
32-52), including the special case `if a == 1: return 0` and the final
normalisation `X if X >= 0 else X + prime`.  The fuel `q.toNat + 1` never
runs out, since the loop measure `q` strictly decreases while staying
nonnegative. -/
def multiplicative_inverse (a : ℤ) (q : ℤ) : Option ℤ :=
  let prime := q
  if a = 1 then some 0
  else (mi_go (q.toNat + 1) a q 1 0).map (fun X => if 0 ≤ X then X else X + prime)

/-- A Python list comprehension whose element expression may raise:
`some` of the mapped list when every element succeeds, else `none`. -/
def mapOpt (f : ℤ → Option ℤ) : List ℤ → Option (List ℤ)
  | [] => some []
  | x :: xs =>
    match f x, mapOpt f xs with
    | some y, some ys => some (y :: ys)
    | _, _ => none

/-- `inversed(omegas, q)` from `ntt_utils.py` (lines 31-54). -/
def inversed (omegas : List ℤ) (q : ℕ) : Option (List ℤ) :=
  mapOpt (fun x => multiplicative_inverse x (q : ℤ)) omegas

/-- `legendre(x, q)` inside `gen_phis` (`ntt_round_trip.py` lines 82-83):
`pow(x, (q - 1) // 2, q)`. -/
def legendre (x : ℤ) (q : ℕ) : ℤ :=
  x ^ ((q - 1) / 2) % (q : ℤ)

/-- Fuel-driven version of the `while Q % 2 == 0: Q //= 2; s += 1` loop of
`tonelli_shanks`; the argument halves at each step, so `fuel = m` always
suffices. -/
def oddPart_go : ℕ → ℕ → ℕ × ℕ
  | 0, m => (m, 0)
  | fuel + 1, m =>
    if m % 2 = 0 ∧ m ≠ 0 then
      let p := oddPart_go fuel (m / 2)
      (p.1, p.2 + 1)
    else (m, 0)

/-- The `while Q % 2 == 0` loop of `tonelli_shanks`, returning `(Q, s)`
with input `Q * 2 ^ s` and `Q` odd for positive input.  (On `0` Python
would loop forever; that is unreachable since the moduli used are odd
primes.) -/
def oddPart (m : ℕ) : ℕ × ℕ := oddPart_go m m

/-- The `for z in range(2, q): if q - 1 == legendre(z, q): break` search of
`tonelli_shanks` (lines 95-97), one unit of fuel per candidate; as in
Python, when no candidate breaks the loop the last value `q - 1` is kept. -/
def ts_find_z_go (q : ℕ) : ℕ → ℕ → ℕ
  | 0, _ => q - 1
  | fuel + 1, z => if (q : ℤ) - 1 = legendre (z : ℤ) q then z else ts_find_z_go q fuel (z + 1)

def ts_find_z (q : ℕ) : ℕ := ts_find_z_go q (q - 2) 2

/-- The `for i in range(1, m)` scan of `tonelli_shanks` (lines 105-108):
starting at candidate `i` with value `t2` and `steps` further candidates,
returns the final value of `i` (the first one with `t2 ≡ 1 (mod q)`, or the
last candidate when none matches — exactly Python's leftover loop
variable). -/
def ts_find_i (q : ℕ) : ℤ → ℕ → ℕ → ℕ
  | _, i, 0 => i
  | t2, i, steps + 1 =>
    if (t2 - 1) % (q : ℤ) = 0 then i
    else ts_find_i q (t2 * t2 % (q : ℤ)) (i + 1) steps

/-- The `while (t - 1) % q != 0` loop of `tonelli_shanks` (lines 103-113).
`none` models the Python failure modes on bad inputs: reaching the loop body
with `m <= 1` (an unbound loop variable or a negative shift count) and
non-termination (fuel; `m` strictly decreases from `s`, so `s` units of fuel
suffice on every input on which Python terminates normally). -/
def ts_loop (q : ℕ) : ℕ → ℤ → ℤ → ℤ → ℕ → Option ℤ
  | 0, _, _, _, _ => none
  | fuel + 1, r, t, c, m =>
    if (t - 1) % (q : ℤ) = 0 then some r
    else if m ≤ 1 then none
    else
      let t2 := t * t % (q : ℤ)
      let i := ts_find_i q t2 1 (m - 2)
      let b := c ^ (2 ^ (m - i - 1)) % (q : ℤ)
      let rr := r * b % (q : ℤ)
      let cc := b * b % (q : ℤ)
      let tt := t * cc % (q : ℤ)
      ts_loop q fuel rr tt cc i

/-- `tonelli_shanks(x, q)` inside `gen_phis` (`ntt_round_trip.py` lines
85-114). -/
def tonelli_shanks (x : ℤ) (q : ℕ) : Option ℤ :=
  let Q := (oddPart (q - 1)).1
  let s := (oddPart (q - 1)).2
  if s = 1 then some (x ^ ((q + 1) / 4) % (q : ℤ))
  else if q < 3 then none
  else
    let z := ts_find_z q
    let c := (z : ℤ) ^ Q % (q : ℤ)
    let r := x ^ ((Q + 1) / 2) % (q : ℤ)
    let t := x ^ Q % (q : ℤ)
    ts_loop q s r t c s

/-- `gen_phis(omegas, q)` from `ntt_round_trip.py` (lines 81-116): a
Tonelli-Shanks square root of every omega. -/
def gen_phis (omegas : List ℤ) (q : ℕ) : Option (List ℤ) :=
  mapOpt (fun x => tonelli_shanks x q) omegas

/-- One butterfly of `cooley_tukey_ntt_opt` (`ntt_round_trip.py` lines
35-38). -/
def ct_butterfly (q : ℕ) (S : ℤ) (t : ℕ) (a : List ℤ) (j : ℕ) : List ℤ :=
  let U := a.getD j 0
  let V := a.getD (j + t) 0 * S
  (a.set j ((U + V) % (q : ℤ))).set (j + t) ((U - V) % (q : ℤ))

/-- The two nested `for` loops of one while-iteration of
`cooley_tukey_ntt_opt` (lines 30-38), with `t` already halved. -/
def ct_middle (q : ℕ) (phis : List ℤ) (m t : ℕ) (a : List ℤ) : List ℤ :=
  (List.range m).foldl
    (fun b i =>
      let j1 := i * (t <<< 1)
      let S := phis.getD (m + i) 0
      (List.range' j1 t).foldl (fun b2 j => ct_butterfly q S t b2 j) b)
    a

/-- The `while m < n` loop of `cooley_tukey_ntt_opt` (lines 26-39); `m`
doubles from 1, so `n` units of fuel dominate the `log₂ n` iterations. -/
def ct_stages (q : ℕ) (phis : List ℤ) (n : ℕ) : ℕ → ℕ → ℕ → List ℤ → List ℤ
  | 0, _, _, a => a
  | fuel + 1, t, m, a =>
    if m < n then
      let t2 := t >>> 1
      ct_stages q phis n fuel t2 (m <<< 1) (ct_middle q phis m t2 a)
    else a

/-- `cooley_tukey_ntt_opt(inp, n, q, phis)` (`ntt_round_trip.py` lines
7-40); `none` models a failing `assert` (`q ≡ 1 (mod 2n)` and `n` a power
of two). -/
def cooley_tukey_ntt_opt (inp : List ℤ) (n q : ℕ) (phis : List ℤ) : Option (List ℤ) :=
  if q % (2 * n) = 1 ∧ n &&& (n - 1) = 0 ∧ 0 < n then
    some (ct_stages q phis n n n 1 inp)
  else none

/-- One butterfly of `gentleman_sande_intt_opt` (lines 59-63). -/
def gs_butterfly (q : ℕ) (S : ℤ) (t : ℕ) (a : List ℤ) (j : ℕ) : List ℤ :=
  let U := a.getD j 0
  let V := a.getD (j + t) 0
  (a.set j ((U + V) % (q : ℤ))).set (j + t) ((U - V) * S % (q : ℤ))

/-- The inner loops of one while-iteration of `gentleman_sande_intt_opt`
(lines 54-64); the block start `j1` is threaded through the fold exactly as
in the source (`j1 += t << 1` after each block). -/
def gs_middle (q : ℕ) (inv_phis : List ℤ) (h t : ℕ) (a : List ℤ) : List ℤ :=
  ((List.range h).foldl
    (fun (p : List ℤ × ℕ) i =>
      let j1 := p.2
      let S := inv_phis.getD (h + i) 0
      ((List.range' j1 t).foldl (fun b2 j => gs_butterfly q S t b2 j) p.1,
        j1 + (t <<< 1)))
    (a, 0)).1

/-- The `while m > 1` loop of `gentleman_sande_intt_opt` (lines 53-66). -/
def gs_stages (q : ℕ) (inv_phis : List ℤ) : ℕ → ℕ → ℕ → List ℤ → List ℤ
  | 0, _, _, a => a
  | fuel + 1, t, m, a =>
    if 1 < m then
      let h := m >>> 1
      gs_stages q inv_phis fuel (t <<< 1) h (gs_middle q inv_phis h t a)
    else a

/-- `gentleman_sande_intt_opt(inp, n, q, inv_phis)` (`ntt_round_trip.py`
lines 43-68), including the final rescaling `[(i // n) % q for i in a]` by
integer floor division. -/
def gentleman_sande_intt_opt (inp : List ℤ) (n q : ℕ) (inv_phis : List ℤ) : List ℤ :=
  (gs_stages q inv_phis n 1 n inp).map (fun v => v / (n : ℤ) % (q : ℤ))

/-- Python integer XOR as used by the xor-swap in `cooley_tukey_ntt`
(`nttstuff.py` lines 37-39); all values there are nonnegative. -/
def int_xor (a b : ℤ) : ℤ := ((a.toNat ^^^ b.toNat : ℕ) : ℤ)

/-- The xor-swap bit-reversal pass of `cooley_tukey_ntt` (lines 34-39). -/
def ct_bitrev_pass (ret : List ℤ) (N : ℕ) : List ℤ :=
  (List.range N).foldl
    (fun r i =>
      let rev_i := reverse_bits i (bit_length N - 1)
      if rev_i > i then
        let r1 := r.set i (int_xor (r.getD i 0) (r.getD rev_i 0))
        let r2 := r1.set rev_i (int_xor (r1.getD rev_i 0) (r1.getD i 0))
        r2.set i (int_xor (r2.getD i 0) (r2.getD rev_i 0))
      else r)
    ret

/-- One pass (one value of `M`) of the butterfly loops of `cooley_tukey_ntt`
(`nttstuff.py` lines 44-52).  `g` restarts at 0 for every block `i` and
gains `N // M` per butterfly, hence equals `j * (N // M)` at butterfly `j`;
the stride loop `for i in range(0, N, M)` visits the `N / M` multiples of
`M` (the sizes used are powers of two). -/
def ct_pass (P : ℤ) (omegas : List ℤ) (N M : ℕ) (ret : List ℤ) : List ℤ :=
  (List.range (N / M)).foldl
    (fun r bi =>
      let i := bi * M
      (List.range (M / 2)).foldl
        (fun r2 j =>
          let g := j * (N / M)
          let k := i + j + M / 2
          let U := r2.getD (i + j) 0
          let V := r2.getD k 0 * omegas.getD g 0
          (r2.set (i + j) ((U + V) % P)).set k ((U - V) % P))
        r)
    ret

/-- `cooley_tukey_ntt(inp, P, omegas)` from `nttstuff.py` (lines 28-55);
`iters = int(math.log2(N))` is `bit_length N - 1` for the power-of-two
sizes used. -/
def cooley_tukey_ntt (inp : List ℤ) (P : ℤ) (omegas : List ℤ) : List ℤ :=
  let N := inp.length
  let ret := ct_bitrev_pass inp N
  ((List.range (bit_length N - 1)).foldl
    (fun (p : List ℤ × ℕ) _ => (ct_pass P omegas N p.2 p.1, p.2 * 2))
    (ret, 2)).1

/-- `naive_ntt(inp, P, omegas)` from `nttstuff.py` (lines 18-25). -/
def naive_ntt (inp : List ℤ) (P : ℤ) (omegas : List ℤ) : List ℤ :=
  let N := inp.length
  (List.range N).foldl
    (fun ret i =>
      (List.range N).foldl
        (fun r j => r.set i ((r.getD i 0 + inp.getD j 0 * omegas.getD (i * j % N) 0) % P))
        ret)
    (List.replicate N 0)

/-- Heap-level rendering of `cooley_tukey_ntt_opt` for the in-place
question: Python list objects are buffers in a store, an argument is a
reference (a store index), and `a = inp.copy()` (line 21) allocates a fresh
buffer which every subsequent write targets.  Returns the final store
paired with the reference the function returns. -/
def cooley_tukey_ntt_opt_store (bufs : List (List ℤ)) (r n q : ℕ) (phis : List ℤ) :
    Option (List (List ℤ) × ℕ) :=
  (cooley_tukey_ntt_opt (bufs.getD r []) n q phis).map
    (fun out => (bufs ++ [out], bufs.length))

/-- Heap-level rendering of `gentleman_sande_intt_opt` (its `a =
inp.copy()` is line 50), as for `cooley_tukey_ntt_opt_store`. -/
def gentleman_sande_intt_opt_store (bufs : List (List ℤ)) (r n q : ℕ) (inv_phis : List ℤ) :
    List (List ℤ) × ℕ :=
  (bufs ++ [gentleman_sande_intt_opt (bufs.getD r []) n q inv_phis], bufs.length)

/-- The contract of the external oracle `sympy.ntheory.primitive_root(q)`
(spec section 6): the returned `g` generates the multiplicative group
modulo `q`. -/
def is_primitive_root (g q : ℕ) : Prop :=
  g ^ (q - 1) % q = 1 ∧ ∀ d, d < q - 1 → 0 < d → g ^ d % q ≠ 1

instance (g q : ℕ) : Decidable (is_primitive_root g q) := by
  unfold is_primitive_root
  infer_instance

/-- A generic butterfly: read positions `j` and `j + t`, write `F` resp.
`G` of the two old values back.  `ct_butterfly` and `gs_butterfly` are
instances (definitionally), which lets one locality argument serve both
transforms. -/
def pair_update (t : ℕ) (F G : ℤ → ℤ → ℤ) (a : List ℤ) (j : ℕ) : List ℤ :=
  (a.set j (F (a.getD j 0) (a.getD (j + t) 0))).set (j + t)
    (G (a.getD j 0) (a.getD (j + t) 0))

/-- Pointwise (ZMod-valued) model of one Cooley-Tukey stage with `m`
blocks of half-width `t`: position `x` lies in block `i = x / 2t` and is a
top (`x % 2t < t`) or bottom element of its butterfly. -/
def ctZ (q : ℕ) (T : ℕ → ZMod q) (m t : ℕ) (f : ℕ → ZMod q) : ℕ → ZMod q :=
  fun x =>
    if x % (2 * t) < t then f x + f (x + t) * T (m + x / (2 * t))
    else f (x - t) - f x * T (m + x / (2 * t))

/-- Pointwise model of one Gentleman-Sande stage with `h` blocks of
half-width `t`. -/
def gsZ (q : ℕ) (U : ℕ → ZMod q) (h t : ℕ) (f : ℕ → ZMod q) : ℕ → ZMod q :=
  fun x =>
    if x % (2 * t) < t then f x + f (x + t)
    else (f (x - t) - f x) * U (h + x / (2 * t))

/-- `steps` consecutive pointwise Cooley-Tukey stages starting at stage
`m = 2^d` (applied first), with half-widths `2^(e-d-1)` as in a size-`2^e`
transform. -/
def ctComp (q : ℕ) (T : ℕ → ZMod q) (e : ℕ) : ℕ → ℕ → (ℕ → ZMod q) → (ℕ → ZMod q)
  | 0, _, f => f
  | steps + 1, d, f => ctComp q T e steps (d + 1) (ctZ q T (2 ^ d) (2 ^ (e - d - 1)) f)

/-- The last `k` pointwise Gentleman-Sande stages of a size-`2^e` inverse
transform: stage `h = 2^(k-1)` (half-width `2^(e-k)`) first, down to
`h = 1`. -/
def gsComp (q : ℕ) (U : ℕ → ZMod q) (e : ℕ) : ℕ → (ℕ → ZMod q) → (ℕ → ZMod q)
  | 0, f => f
  | k + 1, f => gsComp q U e k (gsZ q U (2 ^ k) (2 ^ (e - (k + 1))) f)

/-- The common shape of the two butterfly loop nests: block `i` of width
`2t` starts at `i * 2t`, and its first half is updated pairwise against its
second half with butterfly functions `F i` and `G i`. -/
def blocks_run (t : ℕ) (F G : ℕ → ℤ → ℤ → ℤ) (c : ℕ) (a : List ℤ) : List ℤ :=
  (List.range c).foldl
    (fun b i =>
      (List.range' (i * (2 * t)) t).foldl (fun b2 j => pair_update t (F i) (G i) b2 j) b)
    a

/-- The value `blocks_run` leaves at position `x` (proved in
`blocks_run_spec`): inside the region the butterfly of block `x / 2t`,
outside it the old value. -/
def blocks_model (t : ℕ) (F G : ℕ → ℤ → ℤ → ℤ) (c : ℕ) (a : List ℤ) (x : ℕ) : ℤ :=
  if x < 2 * t * c then
    if x % (2 * t) < t then F (x / (2 * t)) (a.getD x 0) (a.getD (x + t) 0)
    else G (x / (2 * t)) (a.getD (x - t) 0) (a.getD x 0)
  else a.getD x 0

/-- One iteration of the swap loop of `get_bit_reversed` (named so the two
parallel table reversals can be analysed by one fold argument). -/
def gbr_step (n : ℕ) (cc : List ℤ) (i : ℕ) : List ℤ :=
  let rev_i := reverse_bits i (bit_length n - 1)
  if rev_i > i then (cc.set i (cc.getD rev_i 0)).set rev_i (cc.getD i 0) else cc

/-! ## Basic toolkit lemmas -/

theorem getD_set_eq (l : List ℤ) (i : ℕ) (v : ℤ) (h : i < l.length) :
    (l.set i v).getD i 0 = v := by
  simp [List.getD_eq_getElem?_getD, List.getElem?_set_self', h]

theorem getD_set_ne (l : List ℤ) (i j : ℕ) (v : ℤ) (h : i ≠ j) :
    (l.set i v).getD j 0 = l.getD j 0 := by
  simp [List.getD_eq_getElem?_getD, List.getElem?_set_ne h]

theorem foldl_ext {α β : Type} (f g : β → α → β) (b : β) (l : List α)
    (h : ∀ x y, y ∈ l → f x y = g x y) : l.foldl f b = l.foldl g b := by
  induction l generalizing b with
  | nil => rfl
  | cons a l ih =>
      simp only [List.foldl_cons]
      rw [h b a (by simp)]
      exact ih _ (fun x y hy => h x y (by simp [hy]))

theorem isprime_iff (x : ℕ) : isprime x = true ↔ Nat.Prime x := by
  unfold isprime
  rw [Bool.and_eq_true, decide_eq_true_iff, List.all_eq_true, Nat.prime_def_lt]
  constructor
  · rintro ⟨h2, hall⟩
    refine ⟨h2, fun m hm hdvd => ?_⟩
    by_contra hne
    rcases Nat.eq_zero_or_pos m with h0 | h1
    · subst h0; omega
    rcases Nat.lt_or_ge m 2 with hlt | hge
    · omega
    have hmem : m ∈ List.range' 2 (x - 2) := by
      rw [List.mem_range'_1]; omega
    have := hall m hmem
    rw [bne_iff_ne, ne_eq, ← Nat.dvd_iff_mod_eq_zero] at this
    exact this hdvd
  · rintro ⟨h2, hall⟩
    refine ⟨h2, fun m hmem => ?_⟩
    rw [List.mem_range'_1] at hmem
    rw [bne_iff_ne, ne_eq, ← Nat.dvd_iff_mod_eq_zero]
    intro hdvd
    have := hall m (by omega) hdvd
    omega

theorem find_modulus_go_sound (n mm : ℕ) :
    ∀ fuel k q, find_modulus_go n mm fuel k = some q →
      Nat.Prime q ∧ mm ≤ q ∧ q % (2 * n) = 1 ∧ ∃ j, k ≤ j ∧ q = j * 2 * n + 1 := by
  intro fuel
  induction fuel with
  | zero => intro k q h; simp [find_modulus_go] at h
  | succ fuel ih =>
      intro k q h
      rw [find_modulus_go] at h
      split at h
      · rename_i hcond
        obtain ⟨hp, hmm, hmod⟩ := hcond
        obtain rfl : k * 2 * n + 1 = q := by injection h
        exact ⟨(isprime_iff _).mp hp, hmm, hmod, k, le_refl _, rfl⟩
      · obtain ⟨hp, hmm, hmod, j, hj, hq⟩ := ih _ _ h
        exact ⟨hp, hmm, hmod, j, by omega, hq⟩

/-! ## Claim C8 (refinement of the concrete scenario n=4, q=5, ω=2) -/

/-- Claim C8, counterexample.  In the concrete scenario `n = 4`, `q = 5`,
`ω = 2`, `a = [1,2,3,4]` the direct transform (`naive_ntt`) and the fast
transform (`cooley_tukey_ntt`) agree, both yielding `[0,4,3,2]`; but
applying the inverse transform `gentleman_sande_intt_opt` with the
pipeline's bit-reversed inverse table to that result yields `[1,0,0,1]`,
not `[1,2,3,4]`, so the claim's round-trip half is false. -/
theorem C8_counterexample :
    gen_omegas 2 4 5 = some [1, 2, 4, 3] ∧
    naive_ntt [1, 2, 3, 4] 5 [1, 2, 4, 3] = [0, 4, 3, 2] ∧
    cooley_tukey_ntt [1, 2, 3, 4] 5 [1, 2, 4, 3] = [0, 4, 3, 2] ∧
    inversed [1, 2, 4, 3] 5 = some [0, 3, 4, 2] ∧
    get_bit_reversed [0, 3, 4, 2] 4 5 = [0, 4, 3, 2] ∧
    gentleman_sande_intt_opt [0, 4, 3, 2] 4 5 [0, 4, 3, 2] = [1, 0, 0, 1] ∧
    ([1, 0, 0, 1] : List ℤ) ≠ [1, 2, 3, 4] := by
  decide

/-- Claim C8, amended: for `n = 4`, `q = 5`, `ω = 2`, `a = [1,2,3,4]` the
direct `O(n²)` transform equals the fast transform elementwise (both are
`[0,4,3,2]`), but applying `gentleman_sande_intt_opt` with the bit-reversed
inversed-omega table to that result yields `[1,0,0,1]`, not `[1,2,3,4]`
(the inverse transform of this repository does not invert
`cooley_tukey_ntt`, and its floor-division rescaling cannot produce the
value 2 at index 1 from a reduced residue). -/
theorem C8_naive_eq_fast_but_no_round_trip :
    naive_ntt [1, 2, 3, 4] 5 [1, 2, 4, 3] = cooley_tukey_ntt [1, 2, 3, 4] 5 [1, 2, 4, 3] ∧
    naive_ntt [1, 2, 3, 4] 5 [1, 2, 4, 3] = [0, 4, 3, 2] ∧
    gentleman_sande_intt_opt [0, 4, 3, 2] 4 5 (get_bit_reversed [0, 3, 4, 2] 4 5) =
      [1, 0, 0, 1] := by
  decide

/-! ## Claim C2 (final scaling of the inverse transform) -/

/-- Claim C2, counterexample.  With `n = 2`, `q = 5` and butterfly-stage
output `[3, 1]` (from input `[3, 0]` and inverse table `[0, 2]`), the
source's final step gives `3 // 2 % 5 = 1` at index 0, whereas the claimed
scaling by the modular inverse of `n` (`modinverse(2,5) = 3`) would give
`3 * 3 % 5 = 4`. -/
theorem C2_counterexample :
    gs_stages 5 [0, 2] 2 1 2 [3, 0] = [3, 1] ∧
    gentleman_sande_intt_opt [3, 0] 2 5 [0, 2] = [1, 0] ∧
    ((2 * 3) % 5 : ℤ) = 1 ∧
    ((3 * 3) % 5 : ℤ) = 4 ∧
    (1 : ℤ) ≠ 4 := by
  decide

/-- Claim C2, amended: after the butterfly stages the inverse transform
scales each element by integer floor division, `result[i] = (a[i] // n) % q`;
this agrees with the claimed modular-inverse scaling exactly on elements
that are exact products `a[i] = n * c` with `0 ≤ c < q` (the only shape
arising in the valid round trip), and differs otherwise. -/
theorem C2_floor_division_scaling (inp : List ℤ) (n q : ℕ) (tbl : List ℤ) (i : ℕ)
    (c w : ℤ) (hn : 0 < n) (hq : 0 < q)
    (hstage : (gs_stages q tbl n 1 n inp).getD i 0 = (n : ℤ) * c)
    (hc0 : 0 ≤ c) (hcq : c < (q : ℤ)) (hw : ((n : ℤ) * w) % (q : ℤ) = 1) :
    (gentleman_sande_intt_opt inp n q tbl).getD i 0 = c ∧
    ((gs_stages q tbl n 1 n inp).getD i 0 * w) % (q : ℤ) = c := by
  have hn' : (n : ℤ) ≠ 0 := by exact_mod_cast hn.ne'
  constructor
  · unfold gentleman_sande_intt_opt
    rcases Nat.lt_or_ge i (gs_stages q tbl n 1 n inp).length with hi | hi
    · rw [List.getD_eq_getElem _ _ (by simpa using hi), List.getElem_map,
        ← List.getD_eq_getElem _ (0 : ℤ) hi, hstage,
        Int.mul_ediv_cancel_left _ hn', Int.emod_eq_of_lt hc0 hcq]
    · have h0 : (gs_stages q tbl n 1 n inp).getD i 0 = 0 :=
        List.getD_eq_default _ _ hi
      have hc : c = 0 := by
        rw [h0] at hstage
        rcases mul_eq_zero.mp hstage.symm with h | h
        · exact absurd h hn'
        · exact h
      rw [List.getD_eq_default _ _ (by simpa using hi), hc]
  · have h1 : (n : ℤ) * c * w = c * ((n : ℤ) * w) := by ring
    rw [hstage, h1, Int.mul_emod, hw, mul_one, Int.emod_emod_of_dvd _ dvd_rfl,
      Int.emod_eq_of_lt hc0 hcq]

/-- Witness for `C2_floor_division_scaling` at `inp = [4,3]`, `n = 2`,
`q = 5`, table `[0,2]`: the butterfly stages give `[2,2] = 2 • [1,1]` and
the final output at index 0 is `1`. -/
theorem C2_floor_division_scaling_witness :
    (gs_stages 5 [0, 2] 2 1 2 [4, 3]).getD 0 0 = (2 : ℤ) * 1 ∧
    (gentleman_sande_intt_opt [4, 3] 2 5 [0, 2]).getD 0 0 = 1 :=
  ⟨by decide,
    (C2_floor_division_scaling [4, 3] 2 5 [0, 2] 0 1 3 (by decide) (by decide)
      (by decide) (by decide) (by decide) (by decide)).1⟩

/-! ## Claim C3 (modulus search failure behaviour) -/

/-- Claim C3, counterexample.  With `n = 2` and `min_modulus = 14 > 2` the
entry assertion passes but the bounded search `k ∈ range(1, 2 ** 2)` finds
no admissible prime (the candidates are 5, 9, 13), and `find_modulus`
silently returns Python `None` — neither a prime nor a `ModulusNotFound`
error. -/
theorem C3_counterexample :
    2 < 14 ∧ find_modulus 2 14 = some none := by
  decide

/-- Claim C3, amended: when `find_modulus(n, min_modulus)` (with
`min_modulus > n`) returns a number, it is a prime `q = 2nk + 1 ≥
min_modulus` with `q ≡ 1 (mod 2n)`; but when the finite search over
`k ∈ range(1, n ** n)` is exhausted the function silently returns `None`
(no `ModulusNotFound` error exists in the source). -/
theorem C3_found_modulus_sound (n m q : ℕ)
    (h : find_modulus n m = some (some q)) :
    Nat.Prime q ∧ m ≤ q ∧ q % (2 * n) = 1 ∧ ∃ k, 1 ≤ k ∧ q = k * 2 * n + 1 := by
  unfold find_modulus at h
  split at h
  · obtain ⟨hp, hm, hmod, j, hj, hq⟩ :=
      find_modulus_go_sound n m _ _ _ (by injection h)
    exact ⟨hp, hm, hmod, j, hj, hq⟩
  · exact absurd h (by simp)

/-- Witness for `C3_found_modulus_sound` at `n = 2`, `min_modulus = 3`:
the search returns the prime `q = 5 = 1 * 2 * 2 + 1 ≥ 3` with
`5 % 4 = 1`. -/
theorem C3_found_modulus_sound_witness :
    find_modulus 2 3 = some (some 5) ∧
    (Nat.Prime 5 ∧ 3 ≤ 5 ∧ 5 % (2 * 2) = 1 ∧ ∃ k, 1 ≤ k ∧ 5 = k * 2 * 2 + 1) :=
  ⟨by decide, C3_found_modulus_sound 2 3 5 (by decide)⟩

/-! ## Claim C5 (extended-Euclidean modular inverse) -/

/-- Claim C5 is false as stated: `multiplicative_inverse(1, 5)` follows the
special case `if a == 1: return 0` and returns `0`, which is not an inverse
of `1` (`1 * 0 % 5 = 0 ≠ 1`) although `gcd(1,5) = 1`; and for the non-unit
`a = 0` the function silently returns `1` instead of failing with
`NotInvertible`.  Both contradict the function's own comment, which asks
for `i` with `(x * i) mod q == 1`. -/
theorem C5_failing_inputs :
    multiplicative_inverse 1 5 = some 0 ∧ ((1 * 0) % 5 : ℤ) = 0 ∧ (0 : ℤ) ≠ 1 ∧
    multiplicative_inverse 0 5 = some 1 ∧ ((0 * 1) % 5 : ℤ) = 0 := by
  decide

/-! ## Claim C9 (transforms are not in place) -/

/-- Claim C9, counterexample.  At the heap level, calling
`gentleman_sande_intt_opt` on the buffer `[3, 0]` (reference 0 in a
one-buffer store) leaves that buffer unchanged even though the transform's
result `[1, 0]` differs from it: the result is returned in a freshly
allocated buffer (reference 1).  Likewise for `cooley_tukey_ntt_opt`.  So
the transforms do not mutate the sequence they are given. -/
theorem C9_counterexample :
    gentleman_sande_intt_opt [3, 0] 2 5 [0, 2] = [1, 0] ∧
    ([1, 0] : List ℤ) ≠ [3, 0] ∧
    gentleman_sande_intt_opt_store [[3, 0]] 0 2 5 [0, 2] = ([[3, 0], [1, 0]], 1) ∧
    (1 : ℕ) ≠ 0 ∧
    cooley_tukey_ntt_opt [1, 1] 2 5 [1, 3] = some [4, 3] ∧
    ([4, 3] : List ℤ) ≠ [1, 1] ∧
    cooley_tukey_ntt_opt_store [[1, 1]] 0 2 5 [1, 3] = some ([[1, 1], [4, 3]], 1) := by
  decide

/-- Claim C9, amended: both transforms copy their input (`a = inp.copy()`)
and return a fresh list; every pre-existing buffer of the store — in
particular the caller's sequence — is left unchanged, and the returned
reference is the freshly allocated one. -/
theorem C9_transforms_copy (bufs : List (List ℤ)) (r n q : ℕ) (T U : List ℤ) :
    (gentleman_sande_intt_opt_store bufs r n q U).1.take bufs.length = bufs ∧
    (gentleman_sande_intt_opt_store bufs r n q U).2 = bufs.length ∧
    ∀ st ref, cooley_tukey_ntt_opt_store bufs r n q T = some (st, ref) →
      st.take bufs.length = bufs ∧ ref = bufs.length := by
  refine ⟨List.take_left bufs _, rfl, fun st ref h => ?_⟩
  unfold cooley_tukey_ntt_opt_store at h
  rcases hct : cooley_tukey_ntt_opt (bufs.getD r []) n q T with _ | out
  · rw [hct] at h; simp at h
  · rw [hct] at h
    simp only [Option.map_some'] at h
    obtain ⟨h1, h2⟩ := Prod.mk.injEq .. ▸ (Option.some.injEq .. ▸ h)
    rw [← h1, ← h2]
    exact ⟨List.take_left bufs _, rfl⟩

/-- Witness for `C9_transforms_copy` at the concrete store `[[3, 0]]`. -/
theorem C9_transforms_copy_witness :
    (gentleman_sande_intt_opt_store [[3, 0]] 0 2 5 [0, 2]).1.take 1 = [[3, 0]] ∧
    (gentleman_sande_intt_opt_store [[3, 0]] 0 2 5 [0, 2]).2 = 1 := by
  have h := C9_transforms_copy [[3, 0]] 0 2 5 [1, 3] [0, 2]
  exact ⟨h.1, h.2.1⟩

/-! ## More toolkit lemmas -/

theorem getD_take (l : List ℤ) (n i : ℕ) (h : i < n) : (l.take n).getD i 0 = l.getD i 0 := by
  rw [List.getD_eq_getElem?_getD, List.getD_eq_getElem?_getD, List.getElem?_take, if_pos h]

theorem emod_mul_emod_left (a b q : ℤ) : a % q * b % q = a * b % q := by
  rw [Int.mul_emod, Int.emod_emod_of_dvd _ dvd_rfl, ← Int.mul_emod]

theorem emod_mul_emod_right (a b q : ℤ) : a * (b % q) % q = a * b % q := by
  rw [Int.mul_emod, Int.emod_emod_of_dvd _ dvd_rfl, ← Int.mul_emod]

theorem omegas_build_succ (omega : ℤ) (q n : ℕ) :
    omegas_build omega q (n + 1) =
      omegas_build omega q n ++
        [(omegas_build omega q n).getD n 0 * omega % (q : ℤ)] := by
  unfold omegas_build
  rw [List.range_succ, List.foldl_append]
  rfl

theorem omegas_build_length (omega : ℤ) (q n : ℕ) :
    (omegas_build omega q n).length = n + 1 := by
  induction n with
  | zero => rfl
  | succ n ih => rw [omegas_build_succ]; simp [ih]

theorem omegas_build_getD (omega : ℤ) (q : ℕ) (hq : 2 ≤ q) :
    ∀ n i, i ≤ n → (omegas_build omega q n).getD i 0 = omega ^ i % (q : ℤ) := by
  intro n
  induction n with
  | zero =>
      intro i hi
      obtain rfl : i = 0 := by omega
      show (1 : ℤ) = omega ^ 0 % (q : ℤ)
      rw [pow_zero]
      exact (Int.emod_eq_of_lt (by omega) (by exact_mod_cast hq)).symm
  | succ n ih =>
      intro i hi
      rw [omegas_build_succ]
      rcases Nat.lt_or_ge i (n + 1) with h | h
      · rw [List.getD_append _ _ _ _ (by rw [omegas_build_length]; omega)]
        exact ih i (by omega)
      · obtain rfl : i = n + 1 := by omega
        rw [List.getD_append_right _ _ _ _ (by rw [omegas_build_length]),
          omegas_build_length]
        simp only [Nat.sub_self, List.getD_cons_zero]
        rw [ih n (le_refl n), emod_mul_emod_left, ← pow_succ]

/-! ## Claim C4 (which checks root generation performs) -/

/-- Claim C4, counterexample.  For `n = 8`, `q = 5` with oracle primitive
root `g = 2`, `gen_omegas` computes `ω = 2^((5-1)//8) % 5 = 2^0 % 5 = 1`,
all its assertions pass and it returns the all-ones table — yet
`ω^(n/2) % q = 1 ≠ q - 1`, so the claimed order-`n` verification
(`InvalidRoot` on failure) is not performed by the code. -/
theorem C4_counterexample :
    gen_omegas 2 8 5 = some [1, 1, 1, 1, 1, 1, 1, 1] ∧
    (((2 : ℤ) ^ ((5 - 1) / 8) % 5) ^ (8 / 2)) % 5 ≠ (5 : ℤ) - 1 := by
  decide

/-- Claim C4, amended: `gen_omegas` computes `ω = g^((q-1)//n) mod q` and
checks (by `assert`, not `InvalidRoot`) only `0 ≤ ω < q` together with the
conjugate-pair identities `omegas[n-i] * omegas[i] ≡ 1 (mod q)` for
`i < n`; these imply `ω^n ≡ 1 (mod q)` (the `i = 0` instance) but the
stronger half-order check `ω^(n/2) ≡ q-1` is not performed, so succeeding
runs need not have a root of exact order `n`. -/
theorem C4_weak_check_only (g n q : ℕ) (os : List ℤ) (hq : 2 ≤ q) (hn : 0 < n)
    (h : gen_omegas g n q = some os) :
    (((g : ℤ) ^ ((q - 1) / n) % (q : ℤ)) ^ n) % (q : ℤ) = 1 ∧
    ∀ i, 1 ≤ i → i < n → os.getD i 0 * os.getD (n - i) 0 % (q : ℤ) = 1 := by
  simp only [gen_omegas] at h
  split at h
  · split at h
    · rename_i hrange hcheck
      obtain rfl : (omegas_build ((g : ℤ) ^ ((q - 1) / n) % (q : ℤ)) q n).take n = os := by
        injection h
      constructor
      · have h0 := hcheck 0 hn
        have h1q : (1 : ℤ) % (q : ℤ) = 1 :=
          Int.emod_eq_of_lt (by omega) (by exact_mod_cast hq)
        rw [Nat.sub_zero, omegas_build_getD _ _ hq n n (le_refl n),
          omegas_build_getD _ _ hq n 0 (by omega), pow_zero, h1q, mul_one,
          Int.emod_emod_of_dvd _ dvd_rfl] at h0
        exact h0
      · intro i h1 h2
        have hc := hcheck i h2
        rw [getD_take _ _ _ h2, getD_take _ _ _ (by omega), mul_comm]
        exact hc
    · exact absurd h (by simp)
  · exact absurd h (by simp)

/-- Witness for `C4_weak_check_only` at `g = 3`, `n = 4`, `q = 17`
(`ω = 13`). -/
theorem C4_weak_check_only_witness :
    gen_omegas 3 4 17 = some [1, 13, 16, 4] ∧
    (((3 : ℤ) ^ ((17 - 1) / 4) % 17) ^ 4) % 17 = 1 :=
  ⟨by decide,
    (C4_weak_check_only 3 4 17 [1, 13, 16, 4] (by decide) (by decide) (by decide)).1⟩

/-! ## Claim C10 (the transforms never read table entry 0) -/

theorem ct_middle_table_congr (q : ℕ) (T U : List ℤ)
    (hTU : ∀ k, 1 ≤ k → T.getD k 0 = U.getD k 0) (m t : ℕ) (hm : 1 ≤ m) (a : List ℤ) :
    ct_middle q T m t a = ct_middle q U m t a := by
  unfold ct_middle
  apply foldl_ext
  intro b i _
  simp only [hTU (m + i) (by omega)]

theorem ct_stages_table_congr (q n : ℕ) (T U : List ℤ)
    (hTU : ∀ k, 1 ≤ k → T.getD k 0 = U.getD k 0) :
    ∀ fuel t m a, 1 ≤ m → ct_stages q T n fuel t m a = ct_stages q U n fuel t m a := by
  intro fuel
  induction fuel with
  | zero => intro t m a _; rfl
  | succ fuel ih =>
      intro t m a hm
      simp only [ct_stages]
      split
      · rw [ct_middle_table_congr q T U hTU m (t >>> 1) hm]
        refine ih _ _ _ ?_
        rw [Nat.shiftLeft_eq]
        omega
      · rfl

theorem gs_middle_table_congr (q : ℕ) (T U : List ℤ)
    (hTU : ∀ k, 1 ≤ k → T.getD k 0 = U.getD k 0) (h t : ℕ) (hh : 1 ≤ h) (a : List ℤ) :
    gs_middle q T h t a = gs_middle q U h t a := by
  unfold gs_middle
  rw [foldl_ext _
    (fun (p : List ℤ × ℕ) i =>
      ((List.range' p.2 t).foldl (fun b2 j => gs_butterfly q (U.getD (h + i) 0) t b2 j) p.1,
        p.2 + (t <<< 1)))]
  intro b i _
  simp only [hTU (h + i) (by omega)]

theorem gs_stages_table_congr (q : ℕ) (T U : List ℤ)
    (hTU : ∀ k, 1 ≤ k → T.getD k 0 = U.getD k 0) :
    ∀ fuel t m a, gs_stages q T fuel t m a = gs_stages q U fuel t m a := by
  intro fuel
  induction fuel with
  | zero => intro t m a; rfl
  | succ fuel ih =>
      intro t m a
      simp only [gs_stages]
      split
      · rename_i hm
        rw [gs_middle_table_congr q T U hTU (m >>> 1) t
          (by rw [Nat.shiftRight_eq_div_pow]; omega)]
        exact ih _ _ _
      · rfl

/-- Claim C10: for a power-of-two `n ≥ 2`, any modulus `q`, any input of
length `n` and any two twiddle tables of length `n` that agree at indices
`1..n-1` (entry 0 arbitrary), `cooley_tukey_ntt_opt` and
`gentleman_sande_intt_opt` produce identical results — neither transform
ever reads table entry 0, since every butterfly index `m+i` resp. `h+i` is
at least 1. -/
theorem C10_table_entry_zero_unread (e n q : ℕ) (inp T U : List ℤ)
    (he : 1 ≤ e) (hn : n = 2 ^ e) (hinp : inp.length = n)
    (hT : T.length = n) (hU : U.length = n)
    (agree : ∀ k, 1 ≤ k → k < n → T.getD k 0 = U.getD k 0) :
    cooley_tukey_ntt_opt inp n q T = cooley_tukey_ntt_opt inp n q U ∧
    gentleman_sande_intt_opt inp n q T = gentleman_sande_intt_opt inp n q U := by
  have agree2 : ∀ k, 1 ≤ k → T.getD k 0 = U.getD k 0 := by
    intro k hk
    rcases Nat.lt_or_ge k n with h | h
    · exact agree k hk h
    · rw [List.getD_eq_default _ _ (by omega), List.getD_eq_default _ _ (by omega)]
  constructor
  · unfold cooley_tukey_ntt_opt
    rw [ct_stages_table_congr q n T U agree2 n n 1 inp (le_refl 1)]
  · unfold gentleman_sande_intt_opt
    rw [gs_stages_table_congr q T U agree2 n 1 n inp]

/-- Witness for `C10_table_entry_zero_unread`: `n = 2`, `q = 5`, input
`[1, 1]`, tables `[7, 3]` and `[0, 3]` differing only at entry 0. -/
theorem C10_table_entry_zero_unread_witness :
    cooley_tukey_ntt_opt [1, 1] 2 5 [7, 3] = cooley_tukey_ntt_opt [1, 1] 2 5 [0, 3] ∧
    gentleman_sande_intt_opt [1, 1] 2 5 [7, 3] = gentleman_sande_intt_opt [1, 1] 2 5 [0, 3] :=
  C10_table_entry_zero_unread 1 2 5 [1, 1] [7, 3] [0, 3] (le_refl 1) (by decide)
    (by decide) (by decide) (by decide)
    (by intro k h1 h2; interval_cases k; decide)

/-! ## Correctness of the extended-Euclid loop -/

theorem int_gcd_emod_step (a q : ℤ) : Int.gcd q (a % q) = Int.gcd a q := by
  have hmod : a % q = a - q * (a / q) := Int.emod_def a q
  apply Nat.dvd_antisymm
  · rw [← Int.natCast_dvd_natCast]
    apply Int.dvd_gcd
    · have h1 : (Int.gcd q (a % q) : ℤ) ∣ q := Int.gcd_dvd_left
      have h2 : (Int.gcd q (a % q) : ℤ) ∣ a % q := Int.gcd_dvd_right
      have h3 : (Int.gcd q (a % q) : ℤ) ∣ q * (a / q) + a % q :=
        dvd_add (Dvd.dvd.mul_right h1 _) h2
      rwa [Int.ediv_add_emod] at h3
    · exact Int.gcd_dvd_left
  · rw [← Int.natCast_dvd_natCast]
    apply Int.dvd_gcd
    · exact Int.gcd_dvd_right
    · rw [hmod]
      exact dvd_sub Int.gcd_dvd_left (Dvd.dvd.mul_right Int.gcd_dvd_right _)

theorem mi_go_bezout (a0 q0 : ℤ) :
    ∀ fuel (a q X Y : ℤ), q.toNat < fuel → 1 ≤ a → 0 ≤ q → Int.gcd a q = 1 →
      Int.ModEq q0 (X * a0) a → Int.ModEq q0 (Y * a0) q →
      ∃ Xf, mi_go fuel a q X Y = some Xf ∧ Int.ModEq q0 (Xf * a0) 1 := by
  intro fuel
  induction fuel with
  | zero => intro a q X Y hfuel; omega
  | succ fuel ih =>
      intro a q X Y hfuel ha hq hgcd hX hY
      rw [mi_go]
      split
      · rename_i ha1
        have hq0 : ¬ q ≤ 0 := by
          intro hle
          obtain rfl : q = 0 := by omega
          rw [Int.gcd_zero_right] at hgcd
          have : a = 1 := by
            have := Int.natAbs_eq a
            omega
          omega
        rw [if_neg hq0]
        apply ih
        · have h1 : 0 ≤ a % q := Int.emod_nonneg a (by omega)
          have h2 : a % q < q := Int.emod_lt_of_pos a (by omega)
          omega
        · omega
        · exact Int.emod_nonneg a (by omega)
        · rw [int_gcd_emod_step]; exact hgcd
        · exact hY
        · have hmod : a % q = a - q * (a / q) := Int.emod_def a q
          calc (X - a / q * Y) * a0 = X * a0 - (a / q) * (Y * a0) := by ring
            _ ≡ a - (a / q) * q [ZMOD q0] := Int.ModEq.sub hX (Int.ModEq.mul_left _ hY)
            _ = a % q := by rw [hmod]; ring
      · rename_i ha1
        obtain rfl : a = 1 := by omega
        exact ⟨X, rfl, hX⟩

/-- Correctness of `multiplicative_inverse` on the inputs the pipeline
feeds it apart from `1`: for `2 ≤ a < q` coprime to `q` it returns some `b`
with `a * b ≡ 1 (mod q)`. -/
theorem multiplicative_inverse_correct (a : ℤ) (q : ℕ) (ha : 2 ≤ a) (haq : a < (q : ℤ))
    (hgcd : Int.gcd a q = 1) :
    ∃ b, multiplicative_inverse a (q : ℤ) = some b ∧ Int.ModEq (q : ℤ) (a * b) 1 := by
  unfold multiplicative_inverse
  rw [if_neg (by omega)]
  obtain ⟨Xf, hrun, hmod⟩ :=
    mi_go_bezout a (q : ℤ) ((q : ℤ).toNat + 1) a (q : ℤ) 1 0 (by omega) (by omega)
      (by omega) hgcd (by rw [one_mul]) (by rw [zero_mul]; exact ((Int.modEq_zero_iff_dvd).mpr dvd_rfl).symm)
  refine ⟨if 0 ≤ Xf then Xf else Xf + (q : ℤ), by rw [hrun]; rfl, ?_⟩
  have hXf : Int.ModEq (q : ℤ) ((if 0 ≤ Xf then Xf else Xf + (q : ℤ)) * a) 1 := by
    split
    · exact hmod
    · have hq0 : Int.ModEq (q : ℤ) (a * (q : ℤ)) 0 :=
        (Int.modEq_zero_iff_dvd).mpr ⟨a, mul_comm _ _⟩
      calc (Xf + (q : ℤ)) * a = Xf * a + a * q := by ring
        _ ≡ Xf * a + 0 [ZMOD (q : ℤ)] := Int.ModEq.add_left _ hq0
        _ = Xf * a := by ring
        _ ≡ 1 [ZMOD (q : ℤ)] := hmod
  calc a * (if 0 ≤ Xf then Xf else Xf + (q : ℤ))
      = (if 0 ≤ Xf then Xf else Xf + (q : ℤ)) * a := by ring
    _ ≡ 1 [ZMOD (q : ℤ)] := hXf

/-! ## Option-mapped lists, and bridging into `ZMod q` -/

theorem mapOpt_spec (f : ℤ → Option ℤ) :
    ∀ xs ys, mapOpt f xs = some ys →
      ys.length = xs.length ∧ ∀ i, i < xs.length → f (xs.getD i 0) = some (ys.getD i 0) := by
  intro xs
  induction xs with
  | nil =>
      intro ys h
      obtain rfl : ys = [] := by
        simpa [mapOpt] using h.symm
      exact ⟨rfl, by intro i hi; simp at hi⟩
  | cons x xs ih =>
      intro ys h
      rw [mapOpt] at h
      rcases hfx : f x with _ | y <;> rw [hfx] at h
      · exact absurd h (by simp)
      · rcases hrest : mapOpt f xs with _ | ys2 <;> rw [hrest] at h
        · exact absurd h (by simp)
        · obtain rfl : y :: ys2 = ys := by injection h
          obtain ⟨hlen, htail⟩ := ih ys2 hrest
          refine ⟨by simp [hlen], ?_⟩
          intro i hi
          cases i with
          | zero => simpa using hfx
          | succ i => simpa using htail i (by simpa using hi)

theorem intCast_emod_self (a : ℤ) (q : ℕ) : ((a % (q : ℤ) : ℤ) : ZMod q) = (a : ZMod q) := by
  rw [ZMod.intCast_eq_intCast_iff']
  exact Int.emod_emod_of_dvd a dvd_rfl

theorem emod_eq_of_zmod_eq (q : ℕ) (v w : ℤ) (hw0 : 0 ≤ w) (hwq : w < (q : ℤ))
    (h : (v : ZMod q) = (w : ZMod q)) : v % (q : ℤ) = w := by
  rw [ZMod.intCast_eq_intCast_iff'] at h
  rw [h, Int.emod_eq_of_lt hw0 hwq]

theorem modEq_iff_zmod_eq (q : ℕ) (v w : ℤ) : Int.ModEq (q : ℤ) v w ↔ (v : ZMod q) = (w : ZMod q) :=
  (ZMod.intCast_eq_intCast_iff v w q).symm

theorem natpow_emod_cast (g d q : ℕ) : ((g ^ d % q : ℕ) : ZMod q) = (g : ZMod q) ^ d := by
  rw [ZMod.natCast_mod, Nat.cast_pow]

/-! ## The oracle's primitive root, and the order of omega -/

theorem primitive_root_zmod_order (g q : ℕ) (hq : Nat.Prime q)
    (hg : is_primitive_root g q) : orderOf ((g : ZMod q)) = q - 1 := by
  have hq2 : 2 ≤ q := hq.two_le
  have hpow : (g : ZMod q) ^ (q - 1) = 1 := by
    have := hg.1
    calc (g : ZMod q) ^ (q - 1) = ((g ^ (q - 1) % q : ℕ) : ZMod q) := (natpow_emod_cast g _ q).symm
      _ = ((1 : ℕ) : ZMod q) := by rw [this]
      _ = 1 := Nat.cast_one
  have hdvd : orderOf ((g : ZMod q)) ∣ q - 1 := orderOf_dvd_of_pow_eq_one hpow
  rcases Nat.lt_or_ge (orderOf ((g : ZMod q))) (q - 1) with hlt | hge
  · exfalso
    have hpos : 0 < orderOf ((g : ZMod q)) := by
      rcases Nat.eq_zero_or_pos (orderOf ((g : ZMod q))) with h0 | h
      · rw [h0] at hdvd
        omega
      · exact h
    have h1 : (g : ZMod q) ^ orderOf ((g : ZMod q)) = 1 := pow_orderOf_eq_one _
    have h2 : g ^ orderOf ((g : ZMod q)) % q = 1 := by
      have hcast : ((g ^ orderOf ((g : ZMod q)) % q : ℕ) : ZMod q) = ((1 : ℕ) : ZMod q) := by
        rw [natpow_emod_cast, h1, Nat.cast_one]
      have hmodeq := (ZMod.natCast_eq_natCast_iff _ _ _).mp hcast
      unfold Nat.ModEq at hmodeq
      rw [Nat.mod_mod_of_dvd _ dvd_rfl, Nat.mod_eq_of_lt (by omega : 1 < q)] at hmodeq
      exact hmodeq
    exact hg.2 _ hlt hpos h2
  · have hle : orderOf ((g : ZMod q)) ≤ q - 1 := Nat.le_of_dvd (by omega) hdvd
    omega

theorem omega_zmod_order (g q n : ℕ) (hq : Nat.Prime q) (hg : is_primitive_root g q)
    (hn : 0 < n) (hdvd : n ∣ q - 1) (hq1 : 1 < q) :
    orderOf ((g : ZMod q) ^ ((q - 1) / n)) = n := by
  have hk : (q - 1) / n ∣ q - 1 := Nat.div_dvd_of_dvd hdvd
  have hkne : (q - 1) / n ≠ 0 := by
    have := Nat.div_pos (Nat.le_of_dvd (by omega) hdvd) hn
    omega
  rw [orderOf_pow' _ hkne, primitive_root_zmod_order g q hq hg, Nat.gcd_eq_right hk,
    Nat.div_div_self hdvd (by omega)]

theorem primitive_root_cast_ne_zero (g q : ℕ) (hq : Nat.Prime q)
    (hg : is_primitive_root g q) : (g : ZMod q) ≠ 0 := by
  haveI : Fact (Nat.Prime q) := ⟨hq⟩
  intro h0
  have horder := primitive_root_zmod_order g q hq hg
  rw [h0] at horder
  have : (0 : ZMod q) ^ (q - 1) = 1 := by
    rw [← horder]; exact pow_orderOf_eq_one _
  rw [zero_pow (by have := hq.two_le; omega)] at this
  exact zero_ne_one this

/-- The entries of a successfully generated omega table: `os[i] = ω^i mod q`
with `ω = g^((q-1)//n) mod q`. -/
theorem gen_omegas_entries (g n q : ℕ) (os : List ℤ) (hq : 2 ≤ q)
    (h : gen_omegas g n q = some os) :
    os.length = n ∧
    ∀ i, i < n → os.getD i 0 = ((g : ℤ) ^ ((q - 1) / n) % (q : ℤ)) ^ i % (q : ℤ) := by
  simp only [gen_omegas] at h
  split at h
  · split at h
    · obtain rfl : (omegas_build ((g : ℤ) ^ ((q - 1) / n) % (q : ℤ)) q n).take n = os := by
        injection h
      constructor
      · rw [List.length_take, omegas_build_length]
        omega
      · intro i hi
        rw [getD_take _ _ _ hi, omegas_build_getD _ _ hq n i (by omega)]
    · exact absurd h (by simp)
  · exact absurd h (by simp)

theorem find_modulus_sound (n m q : ℕ) (h : find_modulus n m = some (some q)) :
    Nat.Prime q ∧ m ≤ q ∧ q % (2 * n) = 1 ∧ ∃ k, 1 ≤ k ∧ q = k * 2 * n + 1 := by
  unfold find_modulus at h
  split at h
  · exact find_modulus_go_sound n m _ _ _ (by injection h)
  · exact absurd h (by simp)

theorem omega_cast (g q k : ℕ) :
    (((g : ℤ) ^ k % (q : ℤ) : ℤ) : ZMod q) = (g : ZMod q) ^ k := by
  rw [intCast_emod_self, Int.cast_pow, Int.cast_natCast]

theorem omega_pow_cast (g q k j : ℕ) :
    ((((g : ℤ) ^ k % (q : ℤ)) ^ j % (q : ℤ) : ℤ) : ZMod q) = ((g : ZMod q) ^ k) ^ j := by
  rw [intCast_emod_self, Int.cast_pow, omega_cast]

/-- Facts about a nontrivial omega-table entry `ω^j mod q` (`1 ≤ j < n`)
when `g` is a primitive root and `n` divides `q - 1`: the integer lies in
`[2, q)`, is coprime to `q`, and casts to `(g^((q-1)/n))^j` in `ZMod q`. -/
theorem os_entry_facts (g n q : ℕ) (hq_prime : Nat.Prime q) (hg : is_primitive_root g q)
    (hn : 0 < n) (hdvd : n ∣ q - 1) (j : ℕ) (hj1 : 1 ≤ j) (hj2 : j < n) :
    2 ≤ ((g : ℤ) ^ ((q - 1) / n) % (q : ℤ)) ^ j % (q : ℤ) ∧
    ((g : ℤ) ^ ((q - 1) / n) % (q : ℤ)) ^ j % (q : ℤ) < (q : ℤ) ∧
    Int.gcd (((g : ℤ) ^ ((q - 1) / n) % (q : ℤ)) ^ j % (q : ℤ)) q = 1 := by
  haveI : Fact (Nat.Prime q) := ⟨hq_prime⟩
  have hq2 : 2 ≤ q := hq_prime.two_le
  have hqz : (0 : ℤ) < (q : ℤ) := by exact_mod_cast Nat.lt_of_lt_of_le Nat.zero_lt_two hq2
  have h0 : 0 ≤ ((g : ℤ) ^ ((q - 1) / n) % (q : ℤ)) ^ j % (q : ℤ) :=
    Int.emod_nonneg _ (by omega)
  have hlt : ((g : ℤ) ^ ((q - 1) / n) % (q : ℤ)) ^ j % (q : ℤ) < (q : ℤ) :=
    Int.emod_lt_of_pos _ hqz
  have hcast : ((((g : ℤ) ^ ((q - 1) / n) % (q : ℤ)) ^ j % (q : ℤ) : ℤ) : ZMod q) =
      ((g : ZMod q) ^ ((q - 1) / n)) ^ j := omega_pow_cast g q _ j
  have hzne : ((g : ZMod q) ^ ((q - 1) / n)) ^ j ≠ 0 :=
    pow_ne_zero _ (pow_ne_zero _ (primitive_root_cast_ne_zero g q hq_prime hg))
  have hzone : ((g : ZMod q) ^ ((q - 1) / n)) ^ j ≠ 1 := by
    apply pow_ne_one_of_lt_orderOf (by omega)
    rw [omega_zmod_order g q n hq_prime hg hn hdvd (by omega)]
    exact hj2
  have hne0 : ((g : ℤ) ^ ((q - 1) / n) % (q : ℤ)) ^ j % (q : ℤ) ≠ 0 := by
    intro h
    rw [h] at hcast
    exact hzne (by simpa using hcast.symm)
  have hne1 : ((g : ℤ) ^ ((q - 1) / n) % (q : ℤ)) ^ j % (q : ℤ) ≠ 1 := by
    intro h
    rw [h] at hcast
    exact hzone (by simpa using hcast.symm)
  refine ⟨by omega, hlt, ?_⟩
  have hnatlt : (((g : ℤ) ^ ((q - 1) / n) % (q : ℤ)) ^ j % (q : ℤ)).natAbs < q := by omega
  have hnat0 : (((g : ℤ) ^ ((q - 1) / n) % (q : ℤ)) ^ j % (q : ℤ)).natAbs ≠ 0 := by omega
  have hcop : Nat.Coprime q (((g : ℤ) ^ ((q - 1) / n) % (q : ℤ)) ^ j % (q : ℤ)).natAbs := by
    rw [Nat.Prime.coprime_iff_not_dvd hq_prime]
    intro hdvd2
    have := Nat.le_of_dvd (by omega) hdvd2
    omega
  rw [Int.gcd_def, Int.natAbs_ofNat]
  exact Nat.coprime_comm.mp hcop

/-! ## Claim C6 (conjugate symmetry of the twiddle tables) -/

/-- Claim C6, counterexample.  In the pipeline with `n = 4`,
`q = find_modulus(4, 16) = 17` and oracle primitive root `g = 3`, the omega
table is `[1, 13, 16, 4]` and the phi table produced by `gen_phis` is
`[1, 8, 4, 2]`: conjugate symmetry fails for the phi table
(`phis[1] * phis[3] = 16 ≢ 1 (mod 17)`) and for its inverse table
(`[0, 15, 13, 9]`, with `15 * 9 = 135 ≡ 16 ≢ 1`). -/
theorem C6_counterexample :
    find_modulus 4 16 = some (some 17) ∧
    is_primitive_root 3 17 ∧
    gen_omegas 3 4 17 = some [1, 13, 16, 4] ∧
    gen_phis [1, 13, 16, 4] 17 = some [1, 8, 4, 2] ∧
    (8 * 2) % 17 ≠ (1 : ℤ) ∧
    inversed [1, 8, 4, 2] 17 = some [0, 15, 13, 9] ∧
    (15 * 9) % 17 ≠ (1 : ℤ) := by
  decide

/-- Claim C6, amended: for moduli produced by `find_modulus` and an oracle
primitive root, conjugate symmetry `table[i] * table[n-i] ≡ 1 (mod q)`
(`1 ≤ i ≤ n-1`) holds for the omega power table and for its elementwise
modular-inverse table, but not for the negative-wrap phi tables (see the
counterexample). -/
theorem C6_conjugate_symmetry_omega_tables (n minm q g : ℕ) (os ios : List ℤ)
    (hfm : find_modulus n minm = some (some q))
    (hg : is_primitive_root g q) (hn : 0 < n)
    (hos : gen_omegas g n q = some os)
    (hios : inversed os q = some ios)
    (i : ℕ) (h1 : 1 ≤ i) (h2 : i < n) :
    os.getD i 0 * os.getD (n - i) 0 % (q : ℤ) = 1 ∧
    ios.getD i 0 * ios.getD (n - i) 0 % (q : ℤ) = 1 := by
  obtain ⟨hq_prime, hmm, hmod, k, hk, hqk⟩ := find_modulus_sound n minm q hfm
  haveI : Fact (Nat.Prime q) := ⟨hq_prime⟩
  have hq2 : 2 ≤ q := hq_prime.two_le
  have hdvd : n ∣ q - 1 := ⟨k * 2, by have h : n * (k * 2) = k * 2 * n := by ring
                                      rw [h]; omega⟩
  obtain ⟨hlen, hent⟩ := gen_omegas_entries g n q os hq2 hos
  have hord : orderOf ((g : ZMod q) ^ ((q - 1) / n)) = n :=
    omega_zmod_order g q n hq_prime hg hn hdvd (by omega)
  have hpowN : ((g : ZMod q) ^ ((q - 1) / n)) ^ n = 1 := by
    have h := pow_orderOf_eq_one ((g : ZMod q) ^ ((q - 1) / n))
    rw [hord] at h
    exact h
  have hip : i + (n - i) = n := by omega
  constructor
  · rw [hent i h2, hent (n - i) (by omega), emod_mul_emod_left, emod_mul_emod_right,
      ← pow_add, hip]
    apply emod_eq_of_zmod_eq q _ 1 (by omega) (by exact_mod_cast hq2)
    rw [Int.cast_pow, omega_cast, hpowN, Int.cast_one]
  · obtain ⟨hlen2, hinv⟩ := mapOpt_spec _ os ios hios
    have hstep : ∀ j, 1 ≤ j → j < n →
        (((ios.getD j 0 : ℤ)) : ZMod q) * ((g : ZMod q) ^ ((q - 1) / n)) ^ j = 1 := by
      intro j hj1 hj2
      obtain ⟨hb2, hblt, hbgcd⟩ := os_entry_facts g n q hq_prime hg hn hdvd j hj1 hj2
      obtain ⟨b, hbeq, hbmod⟩ :=
        multiplicative_inverse_correct (((g : ℤ) ^ ((q - 1) / n) % (q : ℤ)) ^ j % (q : ℤ))
          q hb2 hblt hbgcd
      have hj := hinv j (by omega)
      rw [hent j hj2, hbeq] at hj
      obtain rfl : b = ios.getD j 0 := by injection hj
      have := (modEq_iff_zmod_eq q _ _).mp hbmod
      rw [Int.cast_mul, Int.cast_one, omega_pow_cast] at this
      rw [mul_comm] at this
      exact this
    have hi := hstep i h1 h2
    have hni := hstep (n - i) (by omega) (by omega)
    apply emod_eq_of_zmod_eq q _ 1 (by omega) (by exact_mod_cast hq2)
    rw [Int.cast_mul, Int.cast_one]
    have hXY : ((g : ZMod q) ^ ((q - 1) / n)) ^ i *
        ((g : ZMod q) ^ ((q - 1) / n)) ^ (n - i) = 1 := by
      rw [← pow_add, hip]
      exact hpowN
    calc ((ios.getD i 0 : ℤ) : ZMod q) * ((ios.getD (n - i) 0 : ℤ) : ZMod q)
        = ((ios.getD i 0 : ℤ) : ZMod q) * ((ios.getD (n - i) 0 : ℤ) : ZMod q) *
          (((g : ZMod q) ^ ((q - 1) / n)) ^ i * ((g : ZMod q) ^ ((q - 1) / n)) ^ (n - i)) := by
          rw [hXY, mul_one]
      _ = (((ios.getD i 0 : ℤ) : ZMod q) * ((g : ZMod q) ^ ((q - 1) / n)) ^ i) *
          (((ios.getD (n - i) 0 : ℤ) : ZMod q) * ((g : ZMod q) ^ ((q - 1) / n)) ^ (n - i)) := by
          ring
      _ = 1 * 1 := by rw [hi, hni]
      _ = 1 := one_mul 1

/-- Witness for `C6_conjugate_symmetry_omega_tables` in the concrete
pipeline `n = 4`, `q = 17`, `g = 3` at `i = 1`. -/
theorem C6_conjugate_symmetry_omega_tables_witness :
    ([1, 13, 16, 4] : List ℤ).getD 1 0 * ([1, 13, 16, 4] : List ℤ).getD 3 0 % 17 = 1 ∧
    ([0, 4, 16, 13] : List ℤ).getD 1 0 * ([0, 4, 16, 13] : List ℤ).getD 3 0 % 17 = 1 :=
  C6_conjugate_symmetry_omega_tables 4 16 17 3 [1, 13, 16, 4] [0, 4, 16, 13]
    (by decide) (by decide) (by decide) (by decide) (by decide) 1 (by decide) (by decide)

/-! ## Correctness of the Tonelli-Shanks square root on the pipeline inputs -/

theorem oddPart_go_spec :
    ∀ fuel m, m ≤ fuel → 0 < m →
      m = (oddPart_go fuel m).1 * 2 ^ (oddPart_go fuel m).2 ∧ (oddPart_go fuel m).1 % 2 = 1 := by
  intro fuel
  induction fuel with
  | zero => intro m h1 h2; omega
  | succ fuel ih =>
      intro m h1 h2
      rw [oddPart_go]
      split
      · rename_i hcond
        obtain ⟨heven, hne⟩ := hcond
        have hrec := ih (m / 2) (by omega) (by omega)
        refine ⟨?_, hrec.2⟩
        show m = (oddPart_go fuel (m / 2)).1 * 2 ^ ((oddPart_go fuel (m / 2)).2 + 1)
        rw [pow_succ, ← mul_assoc, ← hrec.1]
        omega
      · rename_i hcond
        have : m % 2 = 1 := by omega
        exact ⟨by simp, this⟩

theorem oddPart_spec (m : ℕ) (hm : 0 < m) :
    m = (oddPart m).1 * 2 ^ (oddPart m).2 ∧ (oddPart m).1 % 2 = 1 :=
  oddPart_go_spec m m (le_refl m) hm

theorem oddPart_two_le (m : ℕ) (hm : 0 < m) (h4 : m % 4 = 0) : 2 ≤ (oddPart m).2 := by
  obtain ⟨hval, hodd⟩ := oddPart_spec m hm
  rcases hs : (oddPart m).2 with _ | _ | s
  · rw [hs, pow_zero, mul_one] at hval
    omega
  · rw [hs, pow_one] at hval
    omega
  · omega

theorem emod_sub_one_eq_zero_iff (t : ℤ) (q : ℕ) :
    (t - 1) % (q : ℤ) = 0 ↔ ((t : ZMod q)) = 1 := by
  rw [← Int.dvd_iff_emod_eq_zero, ← ZMod.intCast_zmod_eq_zero_iff_dvd, Int.cast_sub,
    Int.cast_one, sub_eq_zero]

theorem ts_find_z_go_spec (q : ℕ) :
    ∀ fuel (z : ℕ), (∃ w : ℕ, z ≤ w ∧ w < z + fuel ∧ (q : ℤ) - 1 = legendre (w : ℤ) q) →
      z ≤ ts_find_z_go q fuel z ∧ ts_find_z_go q fuel z < z + fuel ∧
        (q : ℤ) - 1 = legendre ((ts_find_z_go q fuel z : ℕ) : ℤ) q := by
  intro fuel
  induction fuel with
  | zero =>
      intro z hw
      obtain ⟨w, h1, h2, _⟩ := hw
      omega
  | succ fuel ih =>
      intro z hw
      rw [ts_find_z_go]
      split
      · rename_i hz
        exact ⟨le_refl z, by omega, hz⟩
      · rename_i hz
        obtain ⟨w, h1, h2, h3⟩ := hw
        have hwz : w ≠ z := by
          intro heq
          rw [heq] at h3
          exact hz h3
        obtain ⟨ha, hb, hc⟩ := ih (z + 1) ⟨w, by omega, by omega, h3⟩
        exact ⟨by omega, by omega, hc⟩

theorem ts_find_z_spec (q : ℕ)
    (hw : ∃ w : ℕ, 2 ≤ w ∧ w < q ∧ (q : ℤ) - 1 = legendre (w : ℤ) q) :
    2 ≤ ts_find_z q ∧ ts_find_z q < q ∧
      (q : ℤ) - 1 = legendre ((ts_find_z q : ℕ) : ℤ) q := by
  unfold ts_find_z
  obtain ⟨w, h1, h2, h3⟩ := hw
  obtain ⟨ha, hb, hc⟩ := ts_find_z_go_spec q (q - 2) 2 ⟨w, h1, by omega, h3⟩
  exact ⟨ha, by omega, hc⟩

theorem ts_find_i_spec (q : ℕ) (T : ZMod q) :
    ∀ steps (i0 : ℕ) (t2 : ℤ), 1 ≤ i0 →
      ((t2 : ZMod q)) = T ^ (2 ^ i0) →
      (∃ j, i0 ≤ j ∧ j ≤ i0 + steps ∧ T ^ (2 ^ j) = 1) →
      i0 ≤ ts_find_i q t2 i0 steps ∧ ts_find_i q t2 i0 steps ≤ i0 + steps ∧
        T ^ (2 ^ ts_find_i q t2 i0 steps) = 1 ∧
        ∀ j, i0 ≤ j → j < ts_find_i q t2 i0 steps → T ^ (2 ^ j) ≠ 1 := by
  intro steps
  induction steps with
  | zero =>
      intro i0 t2 hi0 ht2 hex
      rw [ts_find_i]
      obtain ⟨j, hj1, hj2, hj3⟩ := hex
      obtain rfl : j = i0 := by omega
      exact ⟨le_refl _, by omega, hj3, by intro j h1 h2; omega⟩
  | succ steps ih =>
      intro i0 t2 hi0 ht2 hex
      rw [ts_find_i]
      split
      · rename_i hcond
        have h1 : T ^ (2 ^ i0) = 1 := by
          rw [← ht2]
          exact (emod_sub_one_eq_zero_iff t2 q).mp hcond
        exact ⟨le_refl _, by omega, h1, by intro j ha hb; omega⟩
      · rename_i hcond
        have hne : T ^ (2 ^ i0) ≠ 1 := fun h =>
          hcond ((emod_sub_one_eq_zero_iff t2 q).mpr (by rw [ht2, h]))
        have hexp : 2 ^ i0 + 2 ^ i0 = 2 ^ (i0 + 1) := by rw [pow_succ]; omega
        have ht2next : ((t2 * t2 % (q : ℤ) : ℤ) : ZMod q) = T ^ (2 ^ (i0 + 1)) := by
          rw [intCast_emod_self, Int.cast_mul, ht2, ← pow_add, hexp]
        obtain ⟨j, hj1, hj2, hj3⟩ := hex
        have hjne : j ≠ i0 := fun h => hne (h ▸ hj3)
        obtain ⟨ra, rb, rc, rd⟩ := ih (i0 + 1) (t2 * t2 % (q : ℤ)) (by omega) ht2next
          ⟨j, by omega, by omega, hj3⟩
        refine ⟨by omega, by omega, rc, ?_⟩
        intro j2 h1 h2
        rcases Nat.eq_or_lt_of_le h1 with heq | hlt
        · exact heq ▸ hne
        · exact rd j2 (by omega) h2

theorem two_pow_sub_one_add (i : ℕ) (hi : 1 ≤ i) : 2 ^ (i - 1) + 2 ^ (i - 1) = 2 ^ i := by
  obtain ⟨i2, rfl⟩ : ∃ i2, i = i2 + 1 := ⟨i - 1, by omega⟩
  simp only [Nat.add_sub_cancel, pow_succ]
  omega

theorem ts_loop_correct (q : ℕ) (hq : Nat.Prime q) (X : ZMod q) :
    ∀ fuel (r t c : ℤ) (m : ℕ), m ≤ fuel → 1 ≤ m →
      0 ≤ r → r < (q : ℤ) →
      ((r : ZMod q)) ^ 2 = X * ((t : ZMod q)) →
      ((t : ZMod q)) ^ (2 ^ (m - 1)) = 1 →
      ((c : ZMod q)) ^ (2 ^ (m - 1)) = -1 →
      ∃ res, ts_loop q fuel r t c m = some res ∧ 0 ≤ res ∧ res < (q : ℤ) ∧
        ((res : ZMod q)) ^ 2 = X := by
  haveI : Fact (Nat.Prime q) := ⟨hq⟩
  have hq2 : 2 ≤ q := hq.two_le
  intro fuel
  induction fuel with
  | zero => intro r t c m h1 h2 _ _ _ _ _; omega
  | succ fuel ih =>
      intro r t c m hfuel hm hr0 hrq hr ht hc
      rw [ts_loop]
      split
      · rename_i hdone
        have h1 : (t : ZMod q) = 1 := (emod_sub_one_eq_zero_iff t q).mp hdone
        exact ⟨r, rfl, hr0, hrq, by rw [hr, h1, mul_one]⟩
      · rename_i hnotdone
        have htne : (t : ZMod q) ≠ 1 := fun h =>
          hnotdone ((emod_sub_one_eq_zero_iff t q).mpr h)
        have hm2 : 2 ≤ m := by
          by_contra hcon
          obtain rfl : m = 1 := by omega
          simp only [Nat.sub_self, pow_zero, pow_one] at ht
          exact htne ht
        rw [if_neg (by omega : ¬ m ≤ 1)]
        have ht2cast : ((t * t % (q : ℤ) : ℤ) : ZMod q) = (t : ZMod q) ^ (2 ^ 1) := by
          rw [intCast_emod_self, Int.cast_mul]
          ring
        have hex : ∃ j, 1 ≤ j ∧ j ≤ 1 + (m - 2) ∧ (t : ZMod q) ^ (2 ^ j) = 1 :=
          ⟨m - 1, by omega, by omega, ht⟩
        obtain ⟨hia, hib, hic, hid⟩ :=
          ts_find_i_spec q ((t : ZMod q)) (m - 2) 1 (t * t % (q : ℤ)) (le_refl 1) ht2cast hex
        set i := ts_find_i q (t * t % (q : ℤ)) 1 (m - 2) with hidef
        have him : i ≤ m - 1 := by omega
        have hT1 : ((t : ZMod q) ^ (2 ^ (i - 1))) * ((t : ZMod q) ^ (2 ^ (i - 1))) = 1 := by
          rw [← pow_add, two_pow_sub_one_add i (by omega)]
          exact hic
        have hTne : (t : ZMod q) ^ (2 ^ (i - 1)) ≠ 1 := by
          rcases Nat.eq_or_lt_of_le hia with heq | hlt
          · rw [← heq]
            simpa using htne
          · exact hid (i - 1) (by omega) (by omega)
        have hTu : (t : ZMod q) ^ (2 ^ (i - 1)) = -1 := by
          rcases mul_self_eq_one_iff.mp hT1 with h | h
          · exact absurd h hTne
          · exact h
        have hB2 : ((c : ZMod q) ^ 2 ^ (m - i - 1)) * ((c : ZMod q) ^ 2 ^ (m - i - 1)) =
            (c : ZMod q) ^ 2 ^ (m - i) := by
          rw [← pow_add, two_pow_sub_one_add (m - i) (by omega)]
        have hBmi : ((c : ZMod q) ^ 2 ^ (m - i)) ^ 2 ^ (i - 1) = -1 := by
          rw [← pow_mul, ← pow_add]
          have h : m - i + (i - 1) = m - 1 := by omega
          rw [h]
          exact hc
        set b := c ^ 2 ^ (m - i - 1) % (q : ℤ) with hbdef
        set rr := r * b % (q : ℤ) with hrrdef
        set cc := b * b % (q : ℤ) with hccdef
        set tt := t * cc % (q : ℤ) with httdef
        have hqpos : (0 : ℤ) < (q : ℤ) := by exact_mod_cast Nat.lt_of_lt_of_le Nat.zero_lt_two hq2
        have hBcast : ((b : ℤ) : ZMod q) = (c : ZMod q) ^ 2 ^ (m - i - 1) := by
          rw [hbdef, intCast_emod_self, Int.cast_pow]
        have hRRcast : ((rr : ℤ) : ZMod q) = (r : ZMod q) * ((c : ZMod q) ^ 2 ^ (m - i - 1)) := by
          rw [hrrdef, intCast_emod_self, Int.cast_mul, hBcast]
        have hCCcast : ((cc : ℤ) : ZMod q) =
            ((c : ZMod q) ^ 2 ^ (m - i - 1)) * ((c : ZMod q) ^ 2 ^ (m - i - 1)) := by
          rw [hccdef, intCast_emod_self, Int.cast_mul, hBcast]
        have hTTcast : ((tt : ℤ) : ZMod q) = (t : ZMod q) *
            (((c : ZMod q) ^ 2 ^ (m - i - 1)) * ((c : ZMod q) ^ 2 ^ (m - i - 1))) := by
          rw [httdef, intCast_emod_self, Int.cast_mul, hCCcast]
        have hinv1 : ((rr : ℤ) : ZMod q) ^ 2 = X * ((tt : ℤ) : ZMod q) := by
          rw [hRRcast, hTTcast]
          have hrg : ((r : ZMod q) * ((c : ZMod q) ^ 2 ^ (m - i - 1))) ^ 2 =
              (r : ZMod q) ^ 2 *
                (((c : ZMod q) ^ 2 ^ (m - i - 1)) * ((c : ZMod q) ^ 2 ^ (m - i - 1))) := by
            ring
          rw [hrg, hr]
          ring
        have hinv2 : ((tt : ℤ) : ZMod q) ^ 2 ^ (i - 1) = 1 := by
          rw [hTTcast, mul_pow, hB2, hTu, hBmi]
          norm_num
        have hinv3 : ((cc : ℤ) : ZMod q) ^ 2 ^ (i - 1) = -1 := by
          rw [hCCcast, hB2]
          exact hBmi
        exact ih rr tt cc i (by omega) (by omega) (by rw [hrrdef]; exact Int.emod_nonneg _ (by omega))
          (by rw [hrrdef]; exact Int.emod_lt_of_pos _ hqpos) hinv1 hinv2 hinv3

theorem tonelli_shanks_correct (q : ℕ) (hq : Nat.Prime q) (hq4 : q % 4 = 1)
    (x : ℤ) (hxne : ((x : ZMod q)) ≠ 0) (hsq : IsSquare ((x : ZMod q))) :
    ∃ r, tonelli_shanks x q = some r ∧ 0 ≤ r ∧ r < (q : ℤ) ∧
      ((r : ZMod q)) ^ 2 = (x : ZMod q) := by
  haveI : Fact (Nat.Prime q) := ⟨hq⟩
  have hq2 : 2 ≤ q := hq.two_le
  have hq5 : 5 ≤ q := by omega
  have hqz : (0 : ℤ) < (q : ℤ) := by exact_mod_cast Nat.lt_of_lt_of_le Nat.zero_lt_two hq2
  obtain ⟨hQval, hQodd⟩ := oddPart_spec (q - 1) (by omega)
  have hs2 : 2 ≤ (oddPart (q - 1)).2 := oddPart_two_le (q - 1) (by omega) (by omega)
  have hqdiv2 : q / 2 = (q - 1) / 2 := by omega
  have hhalf : (oddPart (q - 1)).1 * 2 ^ ((oddPart (q - 1)).2 - 1) = (q - 1) / 2 := by
    obtain ⟨s2, hs⟩ : ∃ s2, (oddPart (q - 1)).2 = s2 + 1 := ⟨(oddPart (q - 1)).2 - 1, by omega⟩
    rw [hs] at hQval ⊢
    simp only [Nat.add_sub_cancel]
    have hstep : (oddPart (q - 1)).1 * 2 ^ (s2 + 1) = (oddPart (q - 1)).1 * 2 ^ s2 * 2 := by
      rw [pow_succ, mul_assoc]
    omega
  have hchar : ringChar (ZMod q) ≠ 2 := by rw [ZMod.ringChar_zmod_n]; omega
  obtain ⟨a, ha⟩ := FiniteField.exists_nonsquare hchar
  have ha0 : a ≠ 0 := fun h => ha (h ▸ ⟨0, by ring⟩)
  have ha1 : a ≠ 1 := fun h => ha (h ▸ ⟨1, by ring⟩)
  have haeuler : a ^ ((q - 1) / 2) = -1 := by
    rcases ZMod.pow_div_two_eq_neg_one_or_one q ha0 with h | h
    · rw [hqdiv2] at h
      exact absurd ((ZMod.euler_criterion q ha0).mpr (by rw [hqdiv2]; exact h)) ha
    · rw [← hqdiv2]
      exact h
  have hwz : ∃ w : ℕ, 2 ≤ w ∧ w < q ∧ (q : ℤ) - 1 = legendre (w : ℤ) q := by
    refine ⟨a.val, ?_, ZMod.val_lt a, ?_⟩
    · have hv0 : a.val ≠ 0 := fun h => ha0 ((ZMod.val_eq_zero a).mp h)
      have hv1 : a.val ≠ 1 := by
        intro h
        apply ha1
        calc a = ((a.val : ℕ) : ZMod q) := (ZMod.natCast_rightInverse a).symm
          _ = ((1 : ℕ) : ZMod q) := by rw [h]
          _ = 1 := Nat.cast_one
      omega
    · unfold legendre
      have hcast : (((a.val : ℤ) ^ ((q - 1) / 2) : ℤ) : ZMod q) =
          (((q : ℤ) - 1 : ℤ) : ZMod q) := by
        rw [Int.cast_pow, Int.cast_natCast, ZMod.natCast_rightInverse a, haeuler,
          Int.cast_sub, Int.cast_natCast, Int.cast_one, ZMod.natCast_self]
        ring
      exact (emod_eq_of_zmod_eq q _ ((q : ℤ) - 1) (by omega) (by omega) hcast).symm
  obtain ⟨hz2, hzq, hzleg⟩ := ts_find_z_spec q hwz
  have hzpow : ((ts_find_z q : ℕ) : ZMod q) ^ ((q - 1) / 2) = -1 := by
    rw [← Int.cast_natCast (ts_find_z q)]
    unfold legendre at hzleg
    have h := hzleg.symm
    have hcast := congrArg (fun v : ℤ => ((v : ℤ) : ZMod q)) h
    simp only [intCast_emod_self] at hcast
    rw [Int.cast_pow] at hcast
    rw [hcast, Int.cast_sub, Int.cast_natCast, Int.cast_one, ZMod.natCast_self]
    ring
  simp only [tonelli_shanks]
  rw [if_neg (by omega : ¬ (oddPart (q - 1)).2 = 1), if_neg (by omega : ¬ q < 3)]
  apply ts_loop_correct q hq ((x : ZMod q)) (oddPart (q - 1)).2 _ _ _ (oddPart (q - 1)).2
    (le_refl _) (by omega) (Int.emod_nonneg _ (by omega)) (Int.emod_lt_of_pos _ hqz)
  · rw [intCast_emod_self, Int.cast_pow, intCast_emod_self, Int.cast_pow, ← pow_mul]
    have hpowQ : (oddPart (q - 1)).1 + 1 = ((oddPart (q - 1)).1 + 1) / 2 * 2 := by omega
    rw [← hpowQ, pow_succ, mul_comm]
  · rw [intCast_emod_self, Int.cast_pow, ← pow_mul, hhalf]
    have heuler := (ZMod.euler_criterion q hxne).mp hsq
    rw [hqdiv2] at heuler
    exact heuler
  · rw [intCast_emod_self, Int.cast_pow, Int.cast_natCast, ← pow_mul, hhalf]
    exact hzpow

/-! ## Claim C7 (phi entries square to the omegas) -/

/-- Claim C7: in the negative-wrap scheme, for a modulus `q ≡ 1 (mod 2n)`
chosen by `find_modulus` (with `n` even, as for the power-of-two sizes of
the pipeline) and the omega table generated from the oracle's primitive
root, every entry of the phi table built by `gen_phis` squares back to the
corresponding omega: `phis[i]² mod q = omegas[i]` for every `i < n`. -/
theorem C7_phi_squares_to_omegas (n minm q g : ℕ) (os phis : List ℤ)
    (hfm : find_modulus n minm = some (some q)) (hg : is_primitive_root g q)
    (hn : 0 < n) (hne : n % 2 = 0)
    (hos : gen_omegas g n q = some os) (hphis : gen_phis os q = some phis)
    (i : ℕ) (hi : i < n) :
    phis.getD i 0 ^ 2 % (q : ℤ) = os.getD i 0 := by
  obtain ⟨hq_prime, hmm, hmod, k, hk, hqk⟩ := find_modulus_sound n minm q hfm
  haveI : Fact (Nat.Prime q) := ⟨hq_prime⟩
  have hq2 : 2 ≤ q := hq_prime.two_le
  have hq4 : q % 4 = 1 := by
    obtain ⟨m2, hm2⟩ : ∃ m2, n = 2 * m2 := ⟨n / 2, by omega⟩
    have h4 : k * 2 * n = 4 * (k * m2) := by rw [hm2]; ring
    omega
  obtain ⟨hlen, hent⟩ := gen_omegas_entries g n q os hq2 hos
  obtain ⟨hlen2, hphi⟩ := mapOpt_spec _ os phis hphis
  have hxcast : ((os.getD i 0 : ℤ) : ZMod q) = ((g : ZMod q) ^ ((q - 1) / n)) ^ i := by
    rw [hent i hi]
    exact omega_pow_cast g q _ i
  have hgne : (g : ZMod q) ≠ 0 := primitive_root_cast_ne_zero g q hq_prime hg
  have hxne : ((os.getD i 0 : ℤ) : ZMod q) ≠ 0 := by
    rw [hxcast]
    exact pow_ne_zero _ (pow_ne_zero _ hgne)
  have hkeven : (q - 1) / n = k * 2 := by
    have h1 : q - 1 = k * 2 * n := by omega
    rw [h1, Nat.mul_div_cancel _ hn]
  have hsq : IsSquare (((os.getD i 0 : ℤ) : ZMod q)) := by
    rw [hxcast, hkeven]
    refine ⟨((g : ZMod q) ^ k) ^ i, ?_⟩
    rw [← pow_mul, ← pow_mul, ← pow_add]
    congr 1
    ring
  obtain ⟨r, hts, hr0, hrq, hrsq⟩ :=
    tonelli_shanks_correct q hq_prime hq4 (os.getD i 0) hxne hsq
  have hpi := hphi i (by omega)
  rw [hts] at hpi
  obtain rfl : r = phis.getD i 0 := by injection hpi
  have hbound0 : (0 : ℤ) ≤ os.getD i 0 := by
    rw [hent i hi]
    exact Int.emod_nonneg _ (by omega)
  have hboundq : os.getD i 0 < (q : ℤ) := by
    rw [hent i hi]
    exact Int.emod_lt_of_pos _ (by exact_mod_cast Nat.lt_of_lt_of_le Nat.zero_lt_two hq2)
  apply emod_eq_of_zmod_eq q _ _ hbound0 hboundq
  rw [Int.cast_pow]
  exact hrsq

/-- Witness for `C7_phi_squares_to_omegas` in the concrete pipeline
`n = 2`, `q = find_modulus(2,3) = 5`, `g = 2`, at `i = 1`:
`phis = [1, 3]` and `3² mod 5 = 4 = omegas[1]`. -/
theorem C7_phi_squares_to_omegas_witness :
    gen_phis [1, 4] 5 = some [1, 3] ∧
    ([1, 3] : List ℤ).getD 1 0 ^ 2 % 5 = ([1, 4] : List ℤ).getD 1 0 :=
  ⟨by decide,
    C7_phi_squares_to_omegas 2 3 5 2 [1, 4] [1, 3] (by decide) (by decide) (by decide)
      (by decide) (by decide) (by decide) 1 (by decide)⟩

/-! ## Locality of the butterfly loops -/

theorem pair_update_fold_spec (t : ℕ) (F G : ℤ → ℤ → ℤ) (ht : 0 < t) :
    ∀ (c s : ℕ) (a : List ℤ), c ≤ t → s + c + t ≤ a.length →
      ((List.range' s c).foldl (pair_update t F G) a).length = a.length ∧
      ∀ x, ((List.range' s c).foldl (pair_update t F G) a).getD x 0 =
        if s ≤ x ∧ x < s + c then F (a.getD x 0) (a.getD (x + t) 0)
        else if s + t ≤ x ∧ x < s + c + t then G (a.getD (x - t) 0) (a.getD x 0)
        else a.getD x 0 := by
  intro c
  induction c with
  | zero =>
      intro s a hc hlen
      refine ⟨rfl, fun x => ?_⟩
      rw [if_neg (by omega), if_neg (by omega)]
      rfl
  | succ c ih =>
      intro s a hc hlen
      rw [List.range'_succ, List.foldl_cons]
      set a1 := pair_update t F G a s with ha1def
      have hlen1 : a1.length = a.length := by
        rw [ha1def]
        unfold pair_update
        simp
      have hsl : s < a.length := by omega
      have hstl : s + t < a.length := by omega
      have ha1s : a1.getD s 0 = F (a.getD s 0) (a.getD (s + t) 0) := by
        rw [ha1def]
        unfold pair_update
        rw [getD_set_ne _ _ _ _ (by omega), getD_set_eq _ _ _ hsl]
      have ha1st : a1.getD (s + t) 0 = G (a.getD s 0) (a.getD (s + t) 0) := by
        rw [ha1def]
        unfold pair_update
        rw [getD_set_eq _ _ _ (by simpa using hstl)]
      have ha1other : ∀ y, y ≠ s → y ≠ s + t → a1.getD y 0 = a.getD y 0 := by
        intro y h1 h2
        rw [ha1def]
        unfold pair_update
        rw [getD_set_ne _ _ _ _ (by omega), getD_set_ne _ _ _ _ (by omega)]
      obtain ⟨ihlen, ihgetD⟩ := ih (s + 1) a1 (by omega) (by omega)
      refine ⟨by rw [ihlen, hlen1], fun x => ?_⟩
      rw [ihgetD x]
      by_cases h1 : s + 1 ≤ x ∧ x < s + 1 + c
      · rw [if_pos h1, if_pos (by omega)]
        rw [ha1other x (by omega) (by omega), ha1other (x + t) (by omega) (by omega)]
      · rw [if_neg h1]
        by_cases h2 : s + 1 + t ≤ x ∧ x < s + 1 + c + t
        · rw [if_pos h2, if_neg (by omega), if_pos (by omega)]
          rw [ha1other (x - t) (by omega) (by omega), ha1other x (by omega) (by omega)]
        · rw [if_neg h2]
          by_cases hx1 : x = s
          · subst hx1
            rw [ha1s, if_pos (by omega)]
          · by_cases hx2 : x = s + t
            · subst hx2
              rw [ha1st, if_neg (by omega), if_pos (by omega), Nat.add_sub_cancel]
            · rw [ha1other x hx1 hx2, if_neg (by omega), if_neg (by omega)]

theorem block_div (t c r : ℕ) (ht : 0 < t) (hr : r < 2 * t) :
    (2 * t * c + r) / (2 * t) = c := by
  rw [Nat.mul_add_div (by omega), Nat.div_eq_of_lt hr, Nat.add_zero]

theorem block_mod (t c r : ℕ) (hr : r < 2 * t) : (2 * t * c + r) % (2 * t) = r := by
  rw [Nat.mul_add_mod, Nat.mod_eq_of_lt hr]

theorem blocks_run_spec (t : ℕ) (F G : ℕ → ℤ → ℤ → ℤ) (ht : 0 < t) :
    ∀ (c : ℕ) (a : List ℤ), 2 * t * c ≤ a.length →
      (blocks_run t F G c a).length = a.length ∧
      ∀ x, (blocks_run t F G c a).getD x 0 = blocks_model t F G c a x := by
  intro c
  induction c with
  | zero =>
      intro a hlen
      refine ⟨rfl, fun x => ?_⟩
      unfold blocks_model
      rw [if_neg (by omega)]
      rfl
  | succ c ih =>
      intro a hlen
      have hmul : 2 * t * (c + 1) = 2 * t * c + 2 * t := by ring
      have hcm : c * (2 * t) = 2 * t * c := by ring
      obtain ⟨ihlen, ihp⟩ := ih a (by omega)
      have hrun : blocks_run t F G (c + 1) a =
          (List.range' (c * (2 * t)) t).foldl
            (fun b2 j => pair_update t (F c) (G c) b2 j) (blocks_run t F G c a) := by
        simp only [blocks_run, List.range_succ, List.foldl_append, List.foldl_cons,
          List.foldl_nil]
      obtain ⟨plen, pp⟩ := pair_update_fold_spec t (F c) (G c) ht t (c * (2 * t))
        (blocks_run t F G c a) (le_refl t) (by omega)
      rw [hrun]
      refine ⟨plen.trans ihlen, fun x => ?_⟩
      rw [pp x]
      by_cases h1 : c * (2 * t) ≤ x ∧ x < c * (2 * t) + t
      · rw [if_pos h1, ihp x, ihp (x + t)]
        have hxd : x = 2 * t * c + (x - 2 * t * c) := by omega
        have hmod := block_mod t c (x - 2 * t * c) (by omega)
        rw [← hxd] at hmod
        have hdiv := block_div t c (x - 2 * t * c) ht (by omega)
        rw [← hxd] at hdiv
        unfold blocks_model
        rw [if_neg (by omega), if_neg (by omega), if_pos (by omega),
          if_pos (show x % (2 * t) < t by omega), hdiv]
      · rw [if_neg h1]
        by_cases h2 : c * (2 * t) + t ≤ x ∧ x < c * (2 * t) + t + t
        · rw [if_pos h2, ihp x, ihp (x - t)]
          have hxd : x = 2 * t * c + (x - 2 * t * c) := by omega
          have hmod := block_mod t c (x - 2 * t * c) (by omega)
          rw [← hxd] at hmod
          have hdiv := block_div t c (x - 2 * t * c) ht (by omega)
          rw [← hxd] at hdiv
          unfold blocks_model
          rw [if_neg (by omega), if_neg (by omega), if_pos (by omega),
            if_neg (show ¬ x % (2 * t) < t by omega), hdiv]
        · rw [if_neg h2, ihp x]
          unfold blocks_model
          by_cases hlt : x < 2 * t * c
          · rw [if_pos hlt, if_pos (show x < 2 * t * (c + 1) by omega)]
          · rw [if_neg hlt, if_neg (show ¬ x < 2 * t * (c + 1) by omega)]

theorem div_lt_of_lt_region (t m x : ℕ) (ht : 0 < t) (hx : x < 2 * t * m) :
    x / (2 * t) < m := by
  rw [Nat.div_lt_iff_lt_mul (by omega)]
  have h1 : m * (2 * t) = 2 * t * m := by ring
  omega

theorem in_block_lt (t m x : ℕ) (ht : 0 < t) (hx : x < 2 * t * m)
    (hr : x % (2 * t) < t) : x + t < 2 * t * m := by
  have hdm := Nat.div_add_mod x (2 * t)
  have hc : x / (2 * t) < m := div_lt_of_lt_region t m x ht hx
  have hle : 2 * t * (x / (2 * t) + 1) ≤ 2 * t * m := Nat.mul_le_mul_left _ (by omega)
  have hexp : 2 * t * (x / (2 * t) + 1) = 2 * t * (x / (2 * t)) + 2 * t := by ring
  omega

theorem shift_div_mod (t x : ℕ) (ht : 0 < t) (hr : x % (2 * t) < t) :
    (x + t) / (2 * t) = x / (2 * t) ∧ (x + t) % (2 * t) = x % (2 * t) + t := by
  have hdm := Nat.div_add_mod x (2 * t)
  have h1 : x + t = 2 * t * (x / (2 * t)) + (x % (2 * t) + t) := by omega
  rw [h1, block_div t _ _ ht (by omega), block_mod t _ _ (by omega)]
  exact ⟨rfl, rfl⟩

theorem unshift_div_mod (t x : ℕ) (ht : 0 < t) (hr : t ≤ x % (2 * t)) :
    t ≤ x ∧ (x - t) / (2 * t) = x / (2 * t) ∧ (x - t) % (2 * t) + t = x % (2 * t) ∧
    x % (2 * t) < 2 * t := by
  have hdm := Nat.div_add_mod x (2 * t)
  have hmlt : x % (2 * t) < 2 * t := Nat.mod_lt _ (by omega)
  have h1 : x - t = 2 * t * (x / (2 * t)) + (x % (2 * t) - t) := by omega
  rw [h1, block_div t _ _ ht (by omega), block_mod t _ _ (by omega)]
  exact ⟨by omega, rfl, by omega, hmlt⟩

theorem ct_middle_run (q : ℕ) (phis : List ℤ) (m t : ℕ) (a : List ℤ) :
    ct_middle q phis m t a =
      blocks_run t (fun i U W => (U + W * phis.getD (m + i) 0) % (q : ℤ))
        (fun i U W => (U - W * phis.getD (m + i) 0) % (q : ℤ)) m a := rfl

theorem gs_pair_snd (q : ℕ) (inv_phis : List ℤ) (h t : ℕ) (a : List ℤ) :
    ∀ c : ℕ,
      (List.range c).foldl
        (fun (p : List ℤ × ℕ) i =>
          let j1 := p.2
          let S := inv_phis.getD (h + i) 0
          ((List.range' j1 t).foldl (fun b2 j => gs_butterfly q S t b2 j) p.1,
            j1 + (t <<< 1)))
        (a, 0) =
      (blocks_run t (fun i U W => (U + W) % (q : ℤ))
        (fun i U W => (U - W) * inv_phis.getD (h + i) 0 % (q : ℤ)) c a,
       c * (2 * t)) := by
  intro c
  induction c with
  | zero =>
      rw [Nat.zero_mul]
      rfl
  | succ c ih =>
      rw [List.range_succ, List.foldl_append, ih, List.foldl_cons, List.foldl_nil]
      have hrun : blocks_run t (fun i U W => (U + W) % (q : ℤ))
          (fun i U W => (U - W) * inv_phis.getD (h + i) 0 % (q : ℤ)) (c + 1) a =
          (List.range' (c * (2 * t)) t).foldl
            (fun b2 j => pair_update t
              (fun U W => (U + W) % (q : ℤ))
              (fun U W => (U - W) * inv_phis.getD (h + c) 0 % (q : ℤ)) b2 j)
            (blocks_run t (fun i U W => (U + W) % (q : ℤ))
              (fun i U W => (U - W) * inv_phis.getD (h + i) 0 % (q : ℤ)) c a) := by
        simp only [blocks_run, List.range_succ, List.foldl_append, List.foldl_cons,
          List.foldl_nil]
      rw [hrun]
      refine Prod.ext ?_ ?_
      · rfl
      · show c * (2 * t) + (t <<< 1) = (c + 1) * (2 * t)
        rw [Nat.shiftLeft_eq]
        ring

theorem gs_middle_run (q : ℕ) (inv_phis : List ℤ) (h t : ℕ) (a : List ℤ) :
    gs_middle q inv_phis h t a =
      blocks_run t (fun i U W => (U + W) % (q : ℤ))
        (fun i U W => (U - W) * inv_phis.getD (h + i) 0 % (q : ℤ)) h a := by
  unfold gs_middle
  rw [gs_pair_snd q inv_phis h t a h]

theorem ct_middle_corr (q : ℕ) (hq : 0 < q) (phis : List ℤ) (T : ℕ → ZMod q)
    (hT : ∀ k, ((phis.getD k 0 : ℤ) : ZMod q) = T k)
    (m t : ℕ) (ht : 0 < t) (a : List ℤ) (f : ℕ → ZMod q)
    (ha : ∀ x, x < 2 * t * m → ((a.getD x 0 : ℤ) : ZMod q) = f x)
    (hlen : 2 * t * m ≤ a.length) :
    (ct_middle q phis m t a).length = a.length ∧
    ∀ x, x < 2 * t * m →
      (((ct_middle q phis m t a).getD x 0 : ℤ) : ZMod q) = ctZ q T m t f x ∧
      0 ≤ (ct_middle q phis m t a).getD x 0 ∧ (ct_middle q phis m t a).getD x 0 < (q : ℤ) := by
  have hqz : (0 : ℤ) < (q : ℤ) := by exact_mod_cast hq
  rw [ct_middle_run]
  obtain ⟨hl, hp⟩ := blocks_run_spec t
    (fun i U W => (U + W * phis.getD (m + i) 0) % (q : ℤ))
    (fun i U W => (U - W * phis.getD (m + i) 0) % (q : ℤ)) ht m a hlen
  refine ⟨hl, fun x hx => ?_⟩
  rw [hp x]
  unfold blocks_model
  rw [if_pos hx]
  unfold ctZ
  by_cases hr : x % (2 * t) < t
  · rw [if_pos hr, if_pos hr]
    refine ⟨?_, Int.emod_nonneg _ (by omega), Int.emod_lt_of_pos _ hqz⟩
    rw [intCast_emod_self, Int.cast_add, Int.cast_mul, ha x hx,
      ha (x + t) (in_block_lt t m x ht hx hr), hT]
  · rw [if_neg hr, if_neg hr]
    refine ⟨?_, Int.emod_nonneg _ (by omega), Int.emod_lt_of_pos _ hqz⟩
    rw [intCast_emod_self, Int.cast_sub, Int.cast_mul, ha x hx,
      ha (x - t) (by omega), hT]

theorem gs_middle_corr (q : ℕ) (hq : 0 < q) (inv_phis : List ℤ) (U : ℕ → ZMod q)
    (hU : ∀ k, ((inv_phis.getD k 0 : ℤ) : ZMod q) = U k)
    (h t : ℕ) (ht : 0 < t) (a : List ℤ) (f : ℕ → ZMod q)
    (ha : ∀ x, x < 2 * t * h → ((a.getD x 0 : ℤ) : ZMod q) = f x)
    (hlen : 2 * t * h ≤ a.length) :
    (gs_middle q inv_phis h t a).length = a.length ∧
    ∀ x, x < 2 * t * h →
      (((gs_middle q inv_phis h t a).getD x 0 : ℤ) : ZMod q) = gsZ q U h t f x ∧
      0 ≤ (gs_middle q inv_phis h t a).getD x 0 ∧
      (gs_middle q inv_phis h t a).getD x 0 < (q : ℤ) := by
  have hqz : (0 : ℤ) < (q : ℤ) := by exact_mod_cast hq
  rw [gs_middle_run]
  obtain ⟨hl, hp⟩ := blocks_run_spec t
    (fun i U W => (U + W) % (q : ℤ))
    (fun i U W => (U - W) * inv_phis.getD (h + i) 0 % (q : ℤ)) ht h a hlen
  refine ⟨hl, fun x hx => ?_⟩
  rw [hp x]
  unfold blocks_model
  rw [if_pos hx]
  unfold gsZ
  by_cases hr : x % (2 * t) < t
  · rw [if_pos hr, if_pos hr]
    refine ⟨?_, Int.emod_nonneg _ (by omega), Int.emod_lt_of_pos _ hqz⟩
    rw [intCast_emod_self, Int.cast_add, ha x hx, ha (x + t) (in_block_lt t h x ht hx hr)]
  · rw [if_neg hr, if_neg hr]
    refine ⟨?_, Int.emod_nonneg _ (by omega), Int.emod_lt_of_pos _ hqz⟩
    rw [intCast_emod_self, Int.cast_mul, Int.cast_sub, ha x hx, ha (x - t) (by omega), hU]

theorem two_pow_region (e k : ℕ) (hk : k < e) : 2 * 2 ^ (e - (k + 1)) * 2 ^ k = 2 ^ e := by
  have h1 : 2 * 2 ^ (e - (k + 1)) = 2 ^ (e - k) := by
    rw [← pow_succ']
    congr 1
    omega
  rw [h1, ← pow_add]
  congr 1
  omega

theorem ct_stages_stop (q : ℕ) (phis : List ℤ) (n : ℕ) :
    ∀ (fuel t m : ℕ) (a : List ℤ), ¬ m < n → ct_stages q phis n fuel t m a = a := by
  intro fuel t m a hm
  cases fuel with
  | zero => rfl
  | succ fuel =>
      simp only [ct_stages]
      rw [if_neg hm]

theorem gs_stages_stop (q : ℕ) (inv_phis : List ℤ) :
    ∀ (fuel t m : ℕ) (a : List ℤ), ¬ 1 < m → gs_stages q inv_phis fuel t m a = a := by
  intro fuel t m a hm
  cases fuel with
  | zero => rfl
  | succ fuel =>
      simp only [gs_stages]
      rw [if_neg hm]

theorem ct_stages_corr (q : ℕ) (hq : 0 < q) (phis : List ℤ) (T : ℕ → ZMod q)
    (hT : ∀ k, ((phis.getD k 0 : ℤ) : ZMod q) = T k) (e : ℕ) :
    ∀ (steps d fuel : ℕ) (a : List ℤ) (f : ℕ → ZMod q),
      steps + d = e → steps ≤ fuel → a.length = 2 ^ e →
      (∀ x, x < 2 ^ e → ((a.getD x 0 : ℤ) : ZMod q) = f x) →
      (ct_stages q phis (2 ^ e) fuel (2 ^ (e - d)) (2 ^ d) a).length = 2 ^ e ∧
      ∀ x, x < 2 ^ e →
        (((ct_stages q phis (2 ^ e) fuel (2 ^ (e - d)) (2 ^ d) a).getD x 0 : ℤ) : ZMod q) =
          ctComp q T e steps d f x := by
  intro steps
  induction steps with
  | zero =>
      intro d fuel a f hde hf hlen ha
      obtain rfl : d = e := by omega
      rw [ct_stages_stop q phis _ fuel _ _ a (by omega)]
      exact ⟨hlen, fun x hx => ha x hx⟩
  | succ steps ih =>
      intro d fuel a f hde hf hlen ha
      obtain ⟨fu, rfl⟩ : ∃ fu, fuel = fu + 1 := ⟨fuel - 1, by omega⟩
      have hdlt : d < e := by omega
      have hsr : 2 ^ (e - d) >>> 1 = 2 ^ (e - (d + 1)) := by
        rw [Nat.shiftRight_eq_div_pow, pow_one]
        have h1 : e - d = (e - (d + 1)) + 1 := by omega
        rw [h1, pow_succ]
        exact Nat.mul_div_cancel _ (by norm_num)
      have hsl : 2 ^ d <<< 1 = 2 ^ (d + 1) := by
        rw [Nat.shiftLeft_eq, pow_one, ← pow_succ]
      have hreg : 2 * 2 ^ (e - (d + 1)) * 2 ^ d = 2 ^ e := two_pow_region e d hdlt
      simp only [ct_stages]
      rw [if_pos (Nat.pow_lt_pow_right (by omega) hdlt), hsr, hsl]
      obtain ⟨hmlen, hmpt⟩ := ct_middle_corr q hq phis T hT (2 ^ d) (2 ^ (e - (d + 1)))
        (pow_pos (by norm_num) _) a f (fun x hx => ha x (by rw [hreg] at hx; exact hx))
        (by rw [hreg, hlen])
      have hcorr : ∀ x, x < 2 ^ e →
          (((ct_middle q phis (2 ^ d) (2 ^ (e - (d + 1))) a).getD x 0 : ℤ) : ZMod q) =
            ctZ q T (2 ^ d) (2 ^ (e - (d + 1))) f x :=
        fun x hx => (hmpt x (by rw [hreg]; exact hx)).1
      obtain ⟨hslen, hspt⟩ := ih (d + 1) fu (ct_middle q phis (2 ^ d) (2 ^ (e - (d + 1))) a)
        (ctZ q T (2 ^ d) (2 ^ (e - (d + 1))) f) (by omega) (by omega)
        (by rw [hmlen, hlen]) hcorr
      refine ⟨hslen, fun x hx => ?_⟩
      rw [hspt x hx]
      rfl

theorem gs_stages_corr (q : ℕ) (hq : 0 < q) (inv_phis : List ℤ) (U : ℕ → ZMod q)
    (hU : ∀ k, ((inv_phis.getD k 0 : ℤ) : ZMod q) = U k) (e : ℕ) :
    ∀ (k fuel : ℕ) (a : List ℤ) (f : ℕ → ZMod q),
      k ≤ e → k ≤ fuel → a.length = 2 ^ e →
      (∀ x, x < 2 ^ e → ((a.getD x 0 : ℤ) : ZMod q) = f x) →
      (gs_stages q inv_phis fuel (2 ^ (e - k)) (2 ^ k) a).length = 2 ^ e ∧
      (∀ x, x < 2 ^ e →
        (((gs_stages q inv_phis fuel (2 ^ (e - k)) (2 ^ k) a).getD x 0 : ℤ) : ZMod q) =
          gsComp q U e k f x) ∧
      ((1 ≤ k ∨ ∀ x, x < 2 ^ e → 0 ≤ a.getD x 0 ∧ a.getD x 0 < (q : ℤ)) →
        ∀ x, x < 2 ^ e →
          0 ≤ (gs_stages q inv_phis fuel (2 ^ (e - k)) (2 ^ k) a).getD x 0 ∧
          (gs_stages q inv_phis fuel (2 ^ (e - k)) (2 ^ k) a).getD x 0 < (q : ℤ)) := by
  intro k
  induction k with
  | zero =>
      intro fuel a f hke hkf hlen ha
      rw [gs_stages_stop q inv_phis fuel _ _ a (by norm_num)]
      refine ⟨hlen, fun x hx => ha x hx, ?_⟩
      rintro (h1 | hbnd) x hx
      · omega
      · exact hbnd x hx
  | succ k ih =>
      intro fuel a f hke hkf hlen ha
      obtain ⟨fu, rfl⟩ : ∃ fu, fuel = fu + 1 := ⟨fuel - 1, by omega⟩
      have hklt : k < e := by omega
      have hsr : 2 ^ (k + 1) >>> 1 = 2 ^ k := by
        rw [Nat.shiftRight_eq_div_pow, pow_one, pow_succ]
        exact Nat.mul_div_cancel _ (by norm_num)
      have hsl : 2 ^ (e - (k + 1)) <<< 1 = 2 ^ (e - k) := by
        rw [Nat.shiftLeft_eq, pow_one, ← pow_succ]
        congr 1
        omega
      have hreg : 2 * 2 ^ (e - (k + 1)) * 2 ^ k = 2 ^ e := two_pow_region e k hklt
      simp only [gs_stages]
      rw [if_pos (Nat.one_lt_two_pow (by omega)), hsr, hsl]
      obtain ⟨hmlen, hmpt⟩ := gs_middle_corr q hq inv_phis U hU (2 ^ k) (2 ^ (e - (k + 1)))
        (pow_pos (by norm_num) _) a f (fun x hx => ha x (by rw [hreg] at hx; exact hx))
        (by rw [hreg, hlen])
      have hcorr : ∀ x, x < 2 ^ e →
          (((gs_middle q inv_phis (2 ^ k) (2 ^ (e - (k + 1))) a).getD x 0 : ℤ) : ZMod q) =
            gsZ q U (2 ^ k) (2 ^ (e - (k + 1))) f x :=
        fun x hx => (hmpt x (by rw [hreg]; exact hx)).1
      have hbnd2 : ∀ x, x < 2 ^ e →
          0 ≤ (gs_middle q inv_phis (2 ^ k) (2 ^ (e - (k + 1))) a).getD x 0 ∧
          (gs_middle q inv_phis (2 ^ k) (2 ^ (e - (k + 1))) a).getD x 0 < (q : ℤ) :=
        fun x hx => (hmpt x (by rw [hreg]; exact hx)).2
      obtain ⟨hslen, hspt, hsbnd⟩ := ih fu (gs_middle q inv_phis (2 ^ k) (2 ^ (e - (k + 1))) a)
        (gsZ q U (2 ^ k) (2 ^ (e - (k + 1))) f) (by omega) (by omega)
        (by rw [hmlen, hlen]) hcorr
      refine ⟨hslen, fun x hx => ?_, fun _ x hx => hsbnd (Or.inr hbnd2) x hx⟩
      rw [hspt x hx]
      rfl

theorem gsZ_ctZ_cancel (q : ℕ) (T U : ℕ → ZMod q) (m t : ℕ) (ht : 0 < t)
    (hTU : ∀ k, m ≤ k → k < m + m → T k * U k = 1) (f : ℕ → ZMod q)
    (x : ℕ) (hx : x < 2 * t * m) :
    gsZ q U m t (ctZ q T m t f) x = 2 * f x := by
  have hc : x / (2 * t) < m := div_lt_of_lt_region t m x ht hx
  by_cases hr : x % (2 * t) < t
  · obtain ⟨hdiv, hmod⟩ := shift_div_mod t x ht hr
    have e1 : ctZ q T m t f x = f x + f (x + t) * T (m + x / (2 * t)) := by
      unfold ctZ
      rw [if_pos hr]
    have e2 : ctZ q T m t f (x + t) = f x - f (x + t) * T (m + x / (2 * t)) := by
      unfold ctZ
      rw [if_neg (show ¬ (x + t) % (2 * t) < t by omega), Nat.add_sub_cancel, hdiv]
    unfold gsZ
    rw [if_pos hr, e1, e2]
    ring
  · obtain ⟨hxt, hdiv, hmod, hmlt⟩ := unshift_div_mod t x ht (by omega)
    have e1 : ctZ q T m t f (x - t) = f (x - t) + f x * T (m + x / (2 * t)) := by
      unfold ctZ
      rw [if_pos (show (x - t) % (2 * t) < t by omega), Nat.sub_add_cancel hxt, hdiv]
    have e2 : ctZ q T m t f x = f (x - t) - f x * T (m + x / (2 * t)) := by
      unfold ctZ
      rw [if_neg hr]
    unfold gsZ
    rw [if_neg hr, e1, e2]
    have hTUx := hTU (m + x / (2 * t)) (Nat.le_add_right m _) (Nat.add_lt_add_left hc m)
    have hexp : (f (x - t) + f x * T (m + x / (2 * t)) -
        (f (x - t) - f x * T (m + x / (2 * t)))) * U (m + x / (2 * t)) =
        2 * f x * (T (m + x / (2 * t)) * U (m + x / (2 * t))) := by ring
    rw [hexp, hTUx, mul_one]

theorem gsZ_smul (q : ℕ) (U : ℕ → ZMod q) (m t : ℕ) (s : ZMod q) (f : ℕ → ZMod q) :
    gsZ q U m t (fun y => s * f y) = fun x => s * gsZ q U m t f x := by
  funext x
  unfold gsZ
  by_cases hr : x % (2 * t) < t
  · rw [if_pos hr, if_pos hr]
    ring
  · rw [if_neg hr, if_neg hr]
    ring

theorem gsComp_congr (q : ℕ) (U : ℕ → ZMod q) (e : ℕ) :
    ∀ (k : ℕ) (f g : ℕ → ZMod q), k ≤ e → (∀ x, x < 2 ^ e → f x = g x) →
      ∀ x, x < 2 ^ e → gsComp q U e k f x = gsComp q U e k g x := by
  intro k
  induction k with
  | zero =>
      intro f g _ hfg x hx
      exact hfg x hx
  | succ k ih =>
      intro f g hk hfg x hx
      simp only [gsComp]
      apply ih _ _ (by omega) _ x hx
      intro y hy
      have hreg : 2 * 2 ^ (e - (k + 1)) * 2 ^ k = 2 ^ e := two_pow_region e k (by omega)
      unfold gsZ
      by_cases hcond : y % (2 * 2 ^ (e - (k + 1))) < 2 ^ (e - (k + 1))
      · have hplus : y + 2 ^ (e - (k + 1)) < 2 ^ e := by
          have := in_block_lt (2 ^ (e - (k + 1))) (2 ^ k) y (pow_pos (by norm_num) _)
            (by rw [hreg]; exact hy) hcond
          rw [hreg] at this
          exact this
        rw [if_pos hcond, if_pos hcond, hfg y hy, hfg (y + 2 ^ (e - (k + 1))) hplus]
      · rw [if_neg hcond, if_neg hcond,
          hfg (y - 2 ^ (e - (k + 1))) (Nat.lt_of_le_of_lt (Nat.sub_le _ _) hy), hfg y hy]

theorem gsComp_smul (q : ℕ) (U : ℕ → ZMod q) (e : ℕ) (s : ZMod q) :
    ∀ (k : ℕ) (f : ℕ → ZMod q) (x : ℕ),
      gsComp q U e k (fun y => s * f y) x = s * gsComp q U e k f x := by
  intro k
  induction k with
  | zero =>
      intro f x
      rfl
  | succ k ih =>
      intro f x
      simp only [gsComp]
      rw [gsZ_smul]
      exact ih (gsZ q U (2 ^ k) (2 ^ (e - (k + 1))) f) x

theorem ctComp_peel (q : ℕ) (T : ℕ → ZMod q) (e : ℕ) :
    ∀ (steps d : ℕ) (f : ℕ → ZMod q),
      ctComp q T e (steps + 1) d f =
        ctZ q T (2 ^ (d + steps)) (2 ^ (e - (d + steps) - 1)) (ctComp q T e steps d f) := by
  intro steps
  induction steps with
  | zero =>
      intro d f
      rfl
  | succ steps ih =>
      intro d f
      have hL : ctComp q T e (steps + 1 + 1) d f =
          ctComp q T e (steps + 1) (d + 1) (ctZ q T (2 ^ d) (2 ^ (e - d - 1)) f) := rfl
      rw [hL, ih (d + 1) (ctZ q T (2 ^ d) (2 ^ (e - d - 1)) f)]
      have h1 : d + 1 + steps = d + (steps + 1) := by omega
      rw [h1]
      rfl

theorem gs_ct_cancel (q : ℕ) (T U : ℕ → ZMod q) (e : ℕ)
    (hTU : ∀ k, 1 ≤ k → k < 2 ^ e → T k * U k = 1) :
    ∀ (k : ℕ) (f : ℕ → ZMod q), k ≤ e →
      ∀ x, x < 2 ^ e → gsComp q U e k (ctComp q T e k 0 f) x = (2 ^ k : ZMod q) * f x := by
  intro k
  induction k with
  | zero =>
      intro f _ x _
      show f x = (2 : ZMod q) ^ 0 * f x
      rw [pow_zero, one_mul]
  | succ k ih =>
      intro f hk x hx
      simp only [gsComp]
      have hpeel := ctComp_peel q T e k 0 f
      simp only [Nat.zero_add] at hpeel
      rw [hpeel]
      simp only [Nat.sub_sub]
      have h2k : 2 ^ k + 2 ^ k = 2 ^ (k + 1) := two_pow_sub_one_add (k + 1) (by omega)
      have hle : 2 ^ (k + 1) ≤ 2 ^ e := Nat.pow_le_pow_right (by omega) hk
      have hone : 1 ≤ 2 ^ k := Nat.one_le_two_pow
      have hstep : gsComp q U e k
          (gsZ q U (2 ^ k) (2 ^ (e - (k + 1)))
            (ctZ q T (2 ^ k) (2 ^ (e - (k + 1))) (ctComp q T e k 0 f))) x =
          gsComp q U e k (fun y => (2 : ZMod q) * ctComp q T e k 0 f y) x := by
        apply gsComp_congr q U e k _ _ (by omega) _ x hx
        intro y hy
        apply gsZ_ctZ_cancel q T U (2 ^ k) (2 ^ (e - (k + 1))) (pow_pos (by norm_num) _)
          (fun j hj1 hj2 => hTU j (by omega) (by omega)) (ctComp q T e k 0 f) y
        rw [two_pow_region e k (by omega)]
        exact hy
      rw [hstep, gsComp_smul, ih f (by omega) x hx]
      rw [pow_succ]
      ring

theorem reverse_bits_lt (number L : ℕ) : reverse_bits number L < 2 ^ L := by
  unfold reverse_bits
  rcases Nat.eq_zero_or_pos L with hL | hL
  · subst hL
    simp
  · have hgen : ∀ (l : List ℕ) (acc : ℕ), acc < 2 ^ L →
        (l.foldl (fun rev i =>
          if (number >>> i) &&& 1 = 1 then rev ||| (1 <<< (L - 1 - i)) else rev) acc) < 2 ^ L := by
      intro l
      induction l with
      | nil =>
          intro acc hacc
          exact hacc
      | cons b l ih =>
          intro acc hacc
          rw [List.foldl_cons]
          by_cases hb : (number >>> b) &&& 1 = 1
          · rw [if_pos hb]
            apply ih
            apply Nat.or_lt_two_pow hacc
            rw [Nat.shiftLeft_eq, one_mul]
            exact Nat.pow_lt_pow_right (by omega) (by omega)
          · rw [if_neg hb]
            exact ih acc hacc
    exact hgen _ 0 (pow_pos (by norm_num) _)

theorem reverse_bits_zero (L : ℕ) : reverse_bits 0 L = 0 := by
  unfold reverse_bits
  have hgen : ∀ (l : List ℕ) (acc : ℕ),
      (l.foldl (fun rev i =>
        if (0 >>> i) &&& 1 = 1 then rev ||| (1 <<< (L - 1 - i)) else rev) acc) = acc := by
    intro l
    induction l with
    | nil =>
        intro acc
        rfl
    | cons b l ih =>
        intro acc
        rw [List.foldl_cons, if_neg (by simp)]
        exact ih acc
  exact hgen _ 0

theorem bit_length_go_zero (fuel : ℕ) : bit_length_go fuel 0 = 0 := by
  cases fuel with
  | zero => rfl
  | succ fuel => simp [bit_length_go]

theorem bit_length_go_two_pow : ∀ (e fuel : ℕ), 2 ^ e ≤ fuel → bit_length_go fuel (2 ^ e) = e + 1 := by
  intro e
  induction e with
  | zero =>
      intro fuel h
      obtain ⟨f, rfl⟩ : ∃ f, fuel = f + 1 := ⟨fuel - 1, by omega⟩
      simp [bit_length_go, bit_length_go_zero]
  | succ e ih =>
      intro fuel h
      have hp : 0 < 2 ^ (e + 1) := pow_pos (by norm_num) _
      obtain ⟨f, rfl⟩ : ∃ f, fuel = f + 1 := ⟨fuel - 1, by omega⟩
      have hdiv : 2 ^ (e + 1) / 2 = 2 ^ e := by
        rw [pow_succ]
        exact Nat.mul_div_cancel _ (by norm_num)
      have hp2 : 2 ^ e + 2 ^ e = 2 ^ (e + 1) := two_pow_sub_one_add (e + 1) (by omega)
      have hp3 : 1 ≤ 2 ^ e := Nat.one_le_two_pow
      simp only [bit_length_go]
      rw [if_neg (by omega), hdiv, ih f (by omega)]

theorem bit_length_pow (e : ℕ) : bit_length (2 ^ e) = e + 1 :=
  bit_length_go_two_pow e (2 ^ e) (le_refl _)

theorem two_pow_and_sub_one (e : ℕ) : 2 ^ e &&& (2 ^ e - 1) = 0 := by
  rw [Nat.and_pow_two_sub_one_eq_mod, Nat.mod_self]

theorem get_bit_reversed_eq (c : List ℤ) (n q : ℕ) :
    get_bit_reversed c n q = (List.range n).foldl (gbr_step n) c := rfl

theorem gbr_step_swap (n : ℕ) (cc : List ℤ) (i : ℕ)
    (h : reverse_bits i (bit_length n - 1) > i) :
    gbr_step n cc i =
      (cc.set i (cc.getD (reverse_bits i (bit_length n - 1)) 0)).set
        (reverse_bits i (bit_length n - 1)) (cc.getD i 0) := by
  simp only [gbr_step]
  rw [if_pos h]

theorem gbr_step_id (n : ℕ) (cc : List ℤ) (i : ℕ)
    (h : ¬ reverse_bits i (bit_length n - 1) > i) :
    gbr_step n cc i = cc := by
  simp only [gbr_step]
  rw [if_neg h]

theorem swap_pair_step (n : ℕ) (c d : List ℤ) (i R : ℕ) (hi : i < n) (hRn : R < n)
    (hRi : R > i) (hR0 : i = 0 → R = 0)
    (cc dd : List ℤ) (hclen : cc.length = n) (hdlen : dd.length = n)
    (hP : ∀ k, k < n → ∃ j, j < n ∧ (j = 0 → k = 0) ∧
      cc.getD k 0 = c.getD j 0 ∧ dd.getD k 0 = d.getD j 0) :
    ∀ k, k < n → ∃ j, j < n ∧ (j = 0 → k = 0) ∧
      ((cc.set i (cc.getD R 0)).set R (cc.getD i 0)).getD k 0 = c.getD j 0 ∧
      ((dd.set i (dd.getD R 0)).set R (dd.getD i 0)).getD k 0 = d.getD j 0 := by
  intro k hk
  by_cases hki : k = i
  · subst hki
    obtain ⟨j, hjn, hj0, hcj, hdj⟩ := hP R hRn
    refine ⟨j, hjn, ?_, ?_, ?_⟩
    · intro hj
      have := hj0 hj
      omega
    · rw [getD_set_ne _ _ _ _ (by omega), getD_set_eq _ _ _ (by omega)]
      exact hcj
    · rw [getD_set_ne _ _ _ _ (by omega), getD_set_eq _ _ _ (by omega)]
      exact hdj
  · by_cases hkR : k = R
    · subst hkR
      obtain ⟨j, hjn, hj0, hcj, hdj⟩ := hP i hi
      refine ⟨j, hjn, fun hj => hR0 (hj0 hj), ?_, ?_⟩
      · rw [getD_set_eq _ _ _ (by rw [List.length_set]; omega)]
        exact hcj
      · rw [getD_set_eq _ _ _ (by rw [List.length_set]; omega)]
        exact hdj
    · obtain ⟨j, hjn, hj0, hcj, hdj⟩ := hP k hk
      refine ⟨j, hjn, hj0, ?_, ?_⟩
      · rw [getD_set_ne _ _ _ _ (by omega), getD_set_ne _ _ _ _ (by omega)]
        exact hcj
      · rw [getD_set_ne _ _ _ _ (by omega), getD_set_ne _ _ _ _ (by omega)]
        exact hdj

theorem gbr_fold_pair (n : ℕ) (c d : List ℤ)
    (hrevlt : ∀ i, i < n → reverse_bits i (bit_length n - 1) < n) :
    ∀ (l : List ℕ), (∀ i, i ∈ l → i < n) →
    ∀ (cc dd : List ℤ), cc.length = n → dd.length = n →
      (∀ k, k < n → ∃ j, j < n ∧ (j = 0 → k = 0) ∧
        cc.getD k 0 = c.getD j 0 ∧ dd.getD k 0 = d.getD j 0) →
      (l.foldl (gbr_step n) cc).length = n ∧ (l.foldl (gbr_step n) dd).length = n ∧
      ∀ k, k < n → ∃ j, j < n ∧ (j = 0 → k = 0) ∧
        (l.foldl (gbr_step n) cc).getD k 0 = c.getD j 0 ∧
        (l.foldl (gbr_step n) dd).getD k 0 = d.getD j 0 := by
  intro l
  induction l with
  | nil =>
      intro _ cc dd hclen hdlen hP
      exact ⟨hclen, hdlen, hP⟩
  | cons i l ih =>
      intro hmem cc dd hclen hdlen hP
      rw [List.foldl_cons, List.foldl_cons]
      have hi : i < n := hmem i (List.mem_cons_self i l)
      have hRn : reverse_bits i (bit_length n - 1) < n := hrevlt i hi
      by_cases hsw : reverse_bits i (bit_length n - 1) > i
      · rw [gbr_step_swap n cc i hsw, gbr_step_swap n dd i hsw]
        exact ih (fun j hj => hmem j (List.mem_cons_of_mem i hj)) _ _
          (by rw [List.length_set, List.length_set, hclen])
          (by rw [List.length_set, List.length_set, hdlen])
          (swap_pair_step n c d i (reverse_bits i (bit_length n - 1)) hi hRn hsw
            (fun h0 => by rw [h0, reverse_bits_zero]) cc dd hclen hdlen hP)
      · rw [gbr_step_id n cc i hsw, gbr_step_id n dd i hsw]
        exact ih (fun j hj => hmem j (List.mem_cons_of_mem i hj)) cc dd hclen hdlen hP

theorem get_bit_reversed_pair (n q1 q2 : ℕ) (c d : List ℤ)
    (hrevlt : ∀ i, i < n → reverse_bits i (bit_length n - 1) < n)
    (hclen : c.length = n) (hdlen : d.length = n) :
    (get_bit_reversed c n q1).length = n ∧ (get_bit_reversed d n q2).length = n ∧
    ∀ k, k < n → ∃ j, j < n ∧ (j = 0 → k = 0) ∧
      (get_bit_reversed c n q1).getD k 0 = c.getD j 0 ∧
      (get_bit_reversed d n q2).getD k 0 = d.getD j 0 := by
  rw [get_bit_reversed_eq c n q1, get_bit_reversed_eq d n q2]
  exact gbr_fold_pair n c d hrevlt (List.range n) (fun i hi => List.mem_range.mp hi)
    c d hclen hdlen
    (fun k hk => ⟨k, hk, fun h => h, rfl, rfl⟩)

theorem int_coprime_of_zmod_ne_zero (q : ℕ) (hq : Nat.Prime q) (r : ℤ)
    (h0 : 0 ≤ r) (hlt : r < (q : ℤ)) (hne : ((r : ℤ) : ZMod q) ≠ 0) :
    Int.gcd r q = 1 := by
  have hq2 : 2 ≤ q := hq.two_le
  have hr0 : r ≠ 0 := by
    intro h
    rw [h] at hne
    exact hne (by simp)
  have hnatlt : r.natAbs < q := by omega
  have hnat0 : r.natAbs ≠ 0 := by omega
  have hcop : Nat.Coprime q r.natAbs := by
    rw [Nat.Prime.coprime_iff_not_dvd hq]
    intro hdvd2
    have := Nat.le_of_dvd (by omega) hdvd2
    omega
  rw [Int.gcd_def, Int.natAbs_ofNat]
  exact Nat.coprime_comm.mp hcop

/-- A nontrivial phi-table entry (`1 ≤ j < n`) and the matching entry of the
inverse table multiply to `1` in `ZMod q`: `gen_phis` returns a
Tonelli-Shanks square root of `ω^j` that is neither `0` nor `1`, so it lies
in `[2, q)`, is coprime to `q`, and `multiplicative_inverse` is correct on
it. -/
theorem phi_inv_entry (n minm q g : ℕ) (os phis iphis : List ℤ)
    (hfm : find_modulus n minm = some (some q)) (hg : is_primitive_root g q)
    (hn : 0 < n) (hne : n % 2 = 0)
    (hos : gen_omegas g n q = some os) (hphis : gen_phis os q = some phis)
    (hinv : inversed phis q = some iphis)
    (j : ℕ) (hj1 : 1 ≤ j) (hj2 : j < n) :
    ((phis.getD j 0 : ℤ) : ZMod q) * ((iphis.getD j 0 : ℤ) : ZMod q) = 1 := by
  obtain ⟨hq_prime, hmm, hmod, k, hk, hqk⟩ := find_modulus_sound n minm q hfm
  haveI : Fact (Nat.Prime q) := ⟨hq_prime⟩
  have hq2 : 2 ≤ q := hq_prime.two_le
  have hq4 : q % 4 = 1 := by
    obtain ⟨m2, hm2⟩ : ∃ m2, n = 2 * m2 := ⟨n / 2, by omega⟩
    have h4 : k * 2 * n = 4 * (k * m2) := by rw [hm2]; ring
    omega
  have hq1n : q - 1 = n * (k * 2) := by
    have hh : k * 2 * n = n * (k * 2) := by ring
    omega
  have hdvd : n ∣ q - 1 := ⟨k * 2, hq1n⟩
  obtain ⟨hlen, hent⟩ := gen_omegas_entries g n q os hq2 hos
  obtain ⟨hlen2, hphi⟩ := mapOpt_spec _ os phis hphis
  obtain ⟨hlen3, hiphi⟩ := mapOpt_spec _ phis iphis hinv
  have hxcast : ((os.getD j 0 : ℤ) : ZMod q) = ((g : ZMod q) ^ ((q - 1) / n)) ^ j := by
    rw [hent j hj2]
    exact omega_pow_cast g q _ j
  have hgne : (g : ZMod q) ≠ 0 := primitive_root_cast_ne_zero g q hq_prime hg
  have hxne : ((os.getD j 0 : ℤ) : ZMod q) ≠ 0 := by
    rw [hxcast]
    exact pow_ne_zero _ (pow_ne_zero _ hgne)
  have hkeven : (q - 1) / n = k * 2 := by
    have h1 : q - 1 = k * 2 * n := by omega
    rw [h1, Nat.mul_div_cancel _ hn]
  have hsq : IsSquare (((os.getD j 0 : ℤ) : ZMod q)) := by
    rw [hxcast, hkeven]
    refine ⟨((g : ZMod q) ^ k) ^ j, ?_⟩
    rw [← pow_mul, ← pow_mul, ← pow_add]
    congr 1
    ring
  obtain ⟨r, hts, hr0, hrq, hrsq⟩ :=
    tonelli_shanks_correct q hq_prime hq4 (os.getD j 0) hxne hsq
  have hpj := hphi j (by omega)
  rw [hts] at hpj
  obtain rfl : r = phis.getD j 0 := by injection hpj
  have hone : ((g : ZMod q) ^ ((q - 1) / n)) ^ j ≠ 1 := by
    apply pow_ne_one_of_lt_orderOf (by omega)
    rw [omega_zmod_order g q n hq_prime hg hn hdvd (by omega)]
    exact hj2
  have hpne : ((phis.getD j 0 : ℤ) : ZMod q) ≠ 0 := by
    intro h
    apply hxne
    rw [← hrsq, h]
    ring
  have hpne1 : ((phis.getD j 0 : ℤ) : ZMod q) ≠ 1 := by
    intro h
    apply hone
    rw [← hxcast, ← hrsq, h, one_pow]
  have hp2 : 2 ≤ phis.getD j 0 := by
    have hne0 : phis.getD j 0 ≠ 0 := by
      intro h
      apply hpne
      rw [h]
      simp
    have hne1 : phis.getD j 0 ≠ 1 := by
      intro h
      apply hpne1
      rw [h]
      simp
    omega
  have hgcd : Int.gcd (phis.getD j 0) q = 1 :=
    int_coprime_of_zmod_ne_zero q hq_prime _ hr0 hrq hpne
  obtain ⟨b, hb, hbmod⟩ := multiplicative_inverse_correct (phis.getD j 0) q hp2 hrq hgcd
  have hij := hiphi j (by omega)
  rw [hb] at hij
  obtain rfl : b = iphis.getD j 0 := by injection hij
  have hcast := (modEq_iff_zmod_eq q _ _).mp hbmod
  push_cast at hcast
  exact hcast

/-- Claim C1: the NTT round trip of the pipeline is the identity.  For
`n = 2^e` one of the power-of-two sizes `2, 4, ..., 1024`, modulus
`q = find_modulus(n, bound*n + 1)`, the oracle's primitive root `g`, omega,
phi and inverse-phi tables built as in `round_trip_ntt`, and any input of
length `n` with entries in `[0, bound]`: applying `gentleman_sande_intt_opt`
(with the bit-reversed inverse-phi table) to the output of
`cooley_tukey_ntt_opt` (with the bit-reversed phi table) returns the input
exactly, elementwise. -/
theorem C1_round_trip (e bound n minm q g : ℕ) (os phis iphis a : List ℤ)
    (he1 : 1 ≤ e) (he10 : e ≤ 10) (hn : n = 2 ^ e)
    (hminm : minm = bound * n + 1)
    (hfm : find_modulus n minm = some (some q))
    (hg : is_primitive_root g q)
    (hos : gen_omegas g n q = some os)
    (hphis : gen_phis os q = some phis)
    (hinv : inversed phis q = some iphis)
    (halen : a.length = n)
    (hbound : ∀ v ∈ a, 0 ≤ v ∧ v ≤ (bound : ℤ)) :
    (cooley_tukey_ntt_opt a n q (get_bit_reversed phis n q)).map
      (fun r => gentleman_sande_intt_opt r n q (get_bit_reversed iphis n q)) = some a := by
  subst hn hminm
  obtain ⟨hq_prime, hmm, hmod2n, k, hk, hqk⟩ := find_modulus_sound _ _ q hfm
  have hq2 : 2 ≤ q := hq_prime.two_le
  have hq0 : 0 < q := by omega
  have hn0 : 0 < 2 ^ e := pow_pos (by norm_num) e
  have hone2e : 1 ≤ 2 ^ e := Nat.one_le_two_pow
  have heven : 2 ^ e % 2 = 0 := by
    have h2 : 2 * 2 ^ (e - 1) = 2 ^ e := by
      rw [← pow_succ']
      congr 1
      omega
    omega
  obtain ⟨hoslen, hosent⟩ := gen_omegas_entries g (2 ^ e) q os hq2 hos
  obtain ⟨hphislen, hphient⟩ := mapOpt_spec _ os phis hphis
  obtain ⟨hiphislen, hiphient⟩ := mapOpt_spec _ phis iphis hinv
  have hplen : phis.length = 2 ^ e := by rw [hphislen, hoslen]
  have hilen : iphis.length = 2 ^ e := by rw [hiphislen, hplen]
  have hrevlt : ∀ i, i < 2 ^ e → reverse_bits i (bit_length (2 ^ e) - 1) < 2 ^ e := by
    intro i _
    rw [bit_length_pow, Nat.add_sub_cancel]
    exact reverse_bits_lt i e
  obtain ⟨hbplen, hbilen, hpair⟩ :=
    get_bit_reversed_pair (2 ^ e) q q phis iphis hrevlt hplen hilen
  have hTU : ∀ kk, 1 ≤ kk → kk < 2 ^ e →
      (((get_bit_reversed phis (2 ^ e) q).getD kk 0 : ℤ) : ZMod q) *
        (((get_bit_reversed iphis (2 ^ e) q).getD kk 0 : ℤ) : ZMod q) = 1 := by
    intro kk hk1 hk2
    obtain ⟨j, hjn, hj0, hcj, hdj⟩ := hpair kk hk2
    rw [hcj, hdj]
    exact phi_inv_entry (2 ^ e) (bound * 2 ^ e + 1) q g os phis iphis hfm hg hn0 heven
      hos hphis hinv j (by omega) hjn
  obtain ⟨hctlen, hctpt⟩ := ct_stages_corr q hq0 (get_bit_reversed phis (2 ^ e) q)
    (fun kk => (((get_bit_reversed phis (2 ^ e) q).getD kk 0 : ℤ) : ZMod q))
    (fun kk => rfl) e e 0 (2 ^ e) a (fun x => ((a.getD x 0 : ℤ) : ZMod q))
    rfl (le_of_lt (Nat.lt_two_pow e)) halen (fun x _ => rfl)
  simp only [Nat.sub_zero, pow_zero] at hctlen hctpt
  obtain ⟨hgslen, hgspt, hgsbnd⟩ := gs_stages_corr q hq0 (get_bit_reversed iphis (2 ^ e) q)
    (fun kk => (((get_bit_reversed iphis (2 ^ e) q).getD kk 0 : ℤ) : ZMod q))
    (fun kk => rfl) e e (2 ^ e)
    (ct_stages q (get_bit_reversed phis (2 ^ e) q) (2 ^ e) (2 ^ e) (2 ^ e) 1 a)
    (ctComp q (fun kk => (((get_bit_reversed phis (2 ^ e) q).getD kk 0 : ℤ) : ZMod q)) e e 0
      (fun x => ((a.getD x 0 : ℤ) : ZMod q)))
    (le_refl e) (le_of_lt (Nat.lt_two_pow e)) hctlen (fun x hx => hctpt x hx)
  simp only [Nat.sub_self, pow_zero] at hgslen hgspt hgsbnd
  have hcanc := gs_ct_cancel q
    (fun kk => (((get_bit_reversed phis (2 ^ e) q).getD kk 0 : ℤ) : ZMod q))
    (fun kk => (((get_bit_reversed iphis (2 ^ e) q).getD kk 0 : ℤ) : ZMod q))
    e hTU e (fun x => ((a.getD x 0 : ℤ) : ZMod q)) (le_refl e)
  have hmemf : ∀ x, x < 2 ^ e → 0 ≤ a.getD x 0 ∧ a.getD x 0 ≤ (bound : ℤ) := by
    intro x hx
    have hx' : x < a.length := by omega
    have hmem : a.getD x 0 ∈ a := by
      rw [List.getD_eq_getElem a 0 hx']
      exact List.getElem_mem hx'
    exact hbound _ hmem
  have hbqn : bound < q := by
    have h1 : bound * 1 ≤ bound * 2 ^ e := Nat.mul_le_mul_left bound hone2e
    omega
  have hbq : (bound : ℤ) < (q : ℤ) := by exact_mod_cast hbqn
  have hprod : ((2 ^ e : ℕ) : ℤ) * (bound : ℤ) < (q : ℤ) := by
    have h1 : 2 ^ e * bound < q := by
      have hcomm : 2 ^ e * bound = bound * 2 ^ e := by ring
      omega
    exact_mod_cast h1
  have hexact : ∀ x, x < 2 ^ e →
      (gs_stages q (get_bit_reversed iphis (2 ^ e) q) (2 ^ e) 1 (2 ^ e)
        (ct_stages q (get_bit_reversed phis (2 ^ e) q) (2 ^ e) (2 ^ e) (2 ^ e) 1 a)).getD x 0 =
      ((2 ^ e : ℕ) : ℤ) * a.getD x 0 := by
    intro x hx
    obtain ⟨hv0, hvb⟩ := hmemf x hx
    have hval0 : 0 ≤ ((2 ^ e : ℕ) : ℤ) * a.getD x 0 := mul_nonneg (by positivity) hv0
    have hvalq : ((2 ^ e : ℕ) : ℤ) * a.getD x 0 < (q : ℤ) := by
      have h1 : ((2 ^ e : ℕ) : ℤ) * a.getD x 0 ≤ ((2 ^ e : ℕ) : ℤ) * (bound : ℤ) :=
        mul_le_mul_of_nonneg_left hvb (by positivity)
      omega
    have hcast : (((gs_stages q (get_bit_reversed iphis (2 ^ e) q) (2 ^ e) 1 (2 ^ e)
        (ct_stages q (get_bit_reversed phis (2 ^ e) q) (2 ^ e) (2 ^ e) (2 ^ e) 1 a)).getD x 0 :
          ℤ) : ZMod q) =
        ((((2 ^ e : ℕ) : ℤ) * a.getD x 0 : ℤ) : ZMod q) := by
      rw [hgspt x hx, hcanc x hx]
      show (2 ^ e : ZMod q) * ((a.getD x 0 : ℤ) : ZMod q) = _
      push_cast
      ring
    have hmodq := emod_eq_of_zmod_eq q _ _ hval0 hvalq hcast
    obtain ⟨hb0, hbq2⟩ := hgsbnd (Or.inl he1) x hx
    rw [Int.emod_eq_of_lt hb0 hbq2] at hmodq
    exact hmodq
  have h2ene : ((2 ^ e : ℕ) : ℤ) ≠ 0 := by positivity
  have hmain : gentleman_sande_intt_opt
      (ct_stages q (get_bit_reversed phis (2 ^ e) q) (2 ^ e) (2 ^ e) (2 ^ e) 1 a)
      (2 ^ e) q (get_bit_reversed iphis (2 ^ e) q) = a := by
    unfold gentleman_sande_intt_opt
    apply List.ext_getElem (by rw [List.length_map, hgslen, halen])
    intro i h1 h2
    have hi : i < 2 ^ e := by omega
    have hgl : i < (gs_stages q (get_bit_reversed iphis (2 ^ e) q) (2 ^ e) 1 (2 ^ e)
        (ct_stages q (get_bit_reversed phis (2 ^ e) q) (2 ^ e) (2 ^ e) (2 ^ e) 1 a)).length := by
      rw [hgslen]
      exact hi
    rw [List.getElem_map, ← List.getD_eq_getElem _ 0 hgl, ← List.getD_eq_getElem a 0 h2]
    show (gs_stages q (get_bit_reversed iphis (2 ^ e) q) (2 ^ e) 1 (2 ^ e)
        (ct_stages q (get_bit_reversed phis (2 ^ e) q) (2 ^ e) (2 ^ e) (2 ^ e) 1 a)).getD i 0 /
        ((2 ^ e : ℕ) : ℤ) % ((q : ℕ) : ℤ) = a.getD i 0
    obtain ⟨hv0, hvb⟩ := hmemf i hi
    rw [hexact i hi, Int.mul_ediv_cancel_left _ h2ene,
      Int.emod_eq_of_lt hv0 (lt_of_le_of_lt hvb hbq)]
  unfold cooley_tukey_ntt_opt
  rw [if_pos ⟨hmod2n, two_pow_and_sub_one e, hn0⟩]
  exact congrArg some hmain

/-- Witness for `C1_round_trip`: the concrete pipeline `n = 2`, `bound = 1`,
`q = find_modulus(2, 3) = 5`, `g = 2`, `omegas = [1, 4]`, `phis = [1, 3]`,
`inv_phis = [0, 2]`, on input `[1, 1]`: the forward-then-inverse transform
returns `[1, 1]`. -/
theorem C1_round_trip_witness :
    find_modulus 2 3 = some (some 5) ∧ is_primitive_root 2 5 ∧
    (cooley_tukey_ntt_opt [1, 1] 2 5 (get_bit_reversed [1, 3] 2 5)).map
      (fun r => gentleman_sande_intt_opt r 2 5 (get_bit_reversed [0, 2] 2 5)) = some [1, 1] :=
  ⟨by decide, by decide,
    C1_round_trip 1 1 2 3 5 2 [1, 4] [1, 3] [0, 2] [1, 1] (by decide) (by decide) (by decide)
      (by decide) (by decide) (by decide) (by decide) (by decide) (by decide) rfl (by decide)⟩
